import Mathlib

/-!
# Verification of the tsdb shard-local storage engine (noorall/tsdb)

Shallow embedding of the series-key codec, field codec, field-schema
creation, in-memory index posting lists, series-id iterator algebra,
regex tag matching, series-file bulk creation and the shard write-path
validation, with theorems settling the frozen claims about the
specification.

Bytes are modelled as `Nat` (the Go code only moves bytes verbatim and
casts lengths through `uint16`, which is modelled by explicit `% 65536`).
Go slices become `List Nat`, Go maps become association lists, and Go
functions that may panic return `Except`.
-/

namespace Tsdb

/-! ## Binary primitives (`encoding/binary`)

`putUvarint`/`readUvarint` model `binary.PutUvarint`/`binary.Uvarint`
(little-endian base-128).  `u16be` models `binary.BigEndian.PutUint16`
applied to a Go `uint16(n)` cast, so it stores `n % 65536`. -/

def putUvarint (x : Nat) : List Nat :=
  if x < 128 then [x] else (x % 128 + 128) :: putUvarint (x / 128)
termination_by x
decreasing_by exact Nat.div_lt_self (by omega) (by norm_num)

def readUvarint : List Nat → Nat × List Nat
  | [] => (0, [])
  | b :: rest =>
    if b < 128 then (b, rest)
    else
      let (v, r) := readUvarint rest
      (b % 128 + 128 * v, r)

theorem readUvarint_putUvarint (x : Nat) (rest : List Nat) :
    readUvarint (putUvarint x ++ rest) = (x, rest) := by
  induction x using Nat.strong_induction_on with
  | _ x ih =>
    unfold putUvarint
    split
    · simp [readUvarint, *]
    · rename_i h
      rw [List.cons_append]
      have hx : ¬ x % 128 + 128 < 128 := by omega
      have hrec := ih (x / 128) (Nat.div_lt_self (by omega) (by norm_num))
      simp only [readUvarint, if_neg hx, hrec]
      have hm : (x % 128 + 128) % 128 = x % 128 := by
        rw [Nat.add_mod_right]
        exact Nat.mod_mod_of_dvd x dvd_rfl
      have hd := Nat.div_add_mod x 128
      rw [Prod.mk.injEq]
      exact ⟨by omega, rfl⟩

theorem putUvarint_length_pos (x : Nat) : 0 < (putUvarint x).length := by
  unfold putUvarint
  split <;> simp

def u16be (n : Nat) : List Nat := [n % 65536 / 256, n % 256]

def readU16be : List Nat → Nat × List Nat
  | a :: b :: rest => (a * 256 + b, rest)
  | _ => (0, [])

theorem readU16be_u16be (n : Nat) (rest : List Nat) :
    readU16be (u16be n ++ rest) = (n % 65536, rest) := by
  simp only [u16be, readU16be, List.cons_append, List.nil_append]
  have h1 : n % 256 = n % 65536 % 256 := by
    rw [Nat.mod_mod_of_dvd n (by norm_num : (256 : Nat) ∣ 65536)]
  have h2 := Nat.div_add_mod (n % 65536) 256
  rw [Prod.mk.injEq]
  exact ⟨by omega, rfl⟩

/-- `bytes.Compare`: lexicographic three-way comparison of byte slices. -/
def bytesCompare : List Nat → List Nat → Int
  | [], [] => 0
  | [], _ :: _ => -1
  | _ :: _, [] => 1
  | a :: as, b :: bs => if a < b then -1 else if b < a then 1 else bytesCompare as bs

/-! ## Series-key codec (`mapper.go`: `AppendSeriesKey`, `ParseSeriesKey`,
`CompareSeriesKeys`) -/

/-- `models.Tag`: a key/value pair of byte strings. -/
structure STag where
  key : List Nat
  value : List Nat
deriving DecidableEq, Repr

/-- `models.Tags.Size`: total bytes of all keys and values. -/
def tagsSize (tags : List STag) : Nat :=
  (tags.map (fun t => t.key.length + t.value.length)).sum

/-- The bytes appended for a single tag: u16 key length, key bytes,
u16 value length, value bytes. -/
def tagBytes (t : STag) : List Nat :=
  u16be t.key.length ++ t.key ++ u16be t.value.length ++ t.value

/-- `AppendSeriesKey(nil, name, tags)`: uvarint total size, big-endian
u16 name length (cast through `uint16`), name, uvarint tag count, then
for each tag the u16 key length, key, u16 value length and value. -/
def AppendSeriesKey (name : List Nat) (tags : List STag) : List Nat :=
  let tcBytes := putUvarint tags.length
  let size := 2 + name.length + tcBytes.length + 4 * tags.length + tagsSize tags
  putUvarint size ++ u16be name.length ++ name ++ tcBytes ++ tags.flatMap tagBytes

def ReadSeriesKeyLen (data : List Nat) : Nat × List Nat := readUvarint data

def ReadSeriesKeyMeasurement (data : List Nat) : List Nat × List Nat :=
  let (n, rest) := readU16be data
  (rest.take n, rest.drop n)

def ReadSeriesKeyTagN (data : List Nat) : Nat × List Nat := readUvarint data

def ReadSeriesKeyTag (data : List Nat) : List Nat × List Nat × List Nat :=
  let (n, rest) := readU16be data
  let key := rest.take n
  let rest1 := rest.drop n
  let (n2, rest2) := readU16be rest1
  (key, rest2.take n2, rest2.drop n2)

/-- The tag-reading loop of `ParseSeriesKey`. -/
def readTags : Nat → List Nat → List STag
  | 0, _ => []
  | n + 1, data =>
    let (k, v, rest) := ReadSeriesKeyTag data
    ⟨k, v⟩ :: readTags n rest

/-- `ParseSeriesKey`: extract the name and tags from an encoded key. -/
def ParseSeriesKey (data : List Nat) : List Nat × List STag :=
  let (_, data1) := ReadSeriesKeyLen data
  let (name, data2) := ReadSeriesKeyMeasurement data1
  let (tagN, data3) := ReadSeriesKeyTagN data2
  (name, readTags tagN data3)

theorem readSeriesKeyTag_tagBytes (t : STag) (rest : List Nat)
    (hk : t.key.length < 65536) (hv : t.value.length < 65536) :
    ReadSeriesKeyTag (tagBytes t ++ rest) = (t.key, t.value, rest) := by
  simp only [tagBytes, ReadSeriesKeyTag, List.append_assoc, readU16be_u16be,
    Nat.mod_eq_of_lt hk, Nat.mod_eq_of_lt hv, List.take_left, List.drop_left]

theorem readTags_flatMap (tags : List STag) (rest : List Nat)
    (hb : ∀ t ∈ tags, t.key.length < 65536 ∧ t.value.length < 65536) :
    readTags tags.length (tags.flatMap tagBytes ++ rest) = tags := by
  induction tags with
  | nil => simp [readTags]
  | cons t ts ih =>
    have ht := hb t (by simp)
    simp only [List.flatMap_cons, List.length_cons, readTags, List.append_assoc]
    rw [readSeriesKeyTag_tagBytes t _ ht.1 ht.2]
    simp [ih (fun u hu => hb u (by simp [hu]))]

theorem putUvarint_zero : putUvarint 0 = [0] := by
  unfold putUvarint
  norm_num

theorem AppendSeriesKey_length_pos (n : List Nat) (t : List STag) :
    0 < (AppendSeriesKey n t).length := by
  simp only [AppendSeriesKey, List.length_append]
  have := putUvarint_length_pos
    (2 + n.length + (putUvarint t.length).length + 4 * t.length + tagsSize t)
  omega

/-- C6 — For every measurement name and tag list whose name and tag
keys/values are each shorter than 65 536 bytes,
`ParseSeriesKey (AppendSeriesKey nil name tags)` returns exactly the
original name and tag list.  (The layout is: uvarint total size, u16be
name length, name, uvarint tag count, then per tag u16be key length,
key, u16be value length, value — visible in `AppendSeriesKey`.)
Key-sortedness of the tag list is not needed for the round trip. -/
theorem C6_parse_append_roundtrip (name : List Nat) (tags : List STag)
    (hn : name.length < 65536)
    (hb : ∀ t ∈ tags, t.key.length < 65536 ∧ t.value.length < 65536) :
    ParseSeriesKey (AppendSeriesKey name tags) = (name, tags) := by
  simp only [AppendSeriesKey, ParseSeriesKey, ReadSeriesKeyLen, ReadSeriesKeyMeasurement,
    ReadSeriesKeyTagN, List.append_assoc, readUvarint_putUvarint, readU16be_u16be,
    Nat.mod_eq_of_lt hn, List.take_left, List.drop_left]
  have h := readTags_flatMap tags [] hb
  rw [List.append_nil] at h
  rw [h]

/-- C6 witness: the round trip at `cpu,host=a`. -/
theorem C6_parse_append_roundtrip_witness :
    ParseSeriesKey (AppendSeriesKey [99, 112, 117] [⟨[104, 111, 115, 116], [97]⟩]) =
      ([99, 112, 117], [⟨[104, 111, 115, 116], [97]⟩]) :=
  C6_parse_append_roundtrip _ _ (by norm_num) (by decide)

theorem ParseSeriesKey_fst (data : List Nat) :
    (ParseSeriesKey data).1 = (ReadSeriesKeyMeasurement (ReadSeriesKeyLen data).2).1 := by
  rcases h0 : ReadSeriesKeyLen data with ⟨sz, d1⟩
  rcases h1 : ReadSeriesKeyMeasurement d1 with ⟨nm, d2⟩
  rcases h2 : ReadSeriesKeyTagN d2 with ⟨tn, d3⟩
  simp [ParseSeriesKey, h0, h1, h2]

/-- For a tagless key whose name is exactly 65 536 bytes, the `uint16`
cast wraps the stored name length to `0` and parsing returns an empty
name. -/
theorem parse_append_wrapped_name (name : List Nat) (hn : name.length = 65536) :
    (ParseSeriesKey (AppendSeriesKey name [])).1 = [] := by
  rw [ParseSeriesKey_fst]
  simp only [AppendSeriesKey, ReadSeriesKeyLen, ReadSeriesKeyMeasurement,
    List.append_assoc, readUvarint_putUvarint, readU16be_u16be, hn, Nat.mod_self,
    List.take_zero]

/-- C6 counterexample: a measurement name of 65 536 bytes does not
round-trip — `AppendSeriesKey` stores the name length through a
`uint16` cast, so the length field wraps to `0` and `ParseSeriesKey`
reads back an empty name. -/
theorem C6_counterexample :
    ParseSeriesKey (AppendSeriesKey (List.replicate 65536 120) []) ≠
      (List.replicate 65536 120, []) := by
  intro h
  have h1 := parse_append_wrapped_name (List.replicate 65536 120) (by rw [List.length_replicate])
  have h2 := congrArg Prod.fst h
  rw [h1] at h2
  have h3 := congrArg List.length h2
  simp only [List.length_nil, List.length_replicate] at h3
  omega

/-- The tag-comparison loop of `CompareSeriesKeys` (indices `i` up to the
two tag counts become structural recursion on the two remaining counts). -/
def compareTagsLoop : Nat → Nat → List Nat → List Nat → Int
  | 0, 0, _, _ => 0
  | 0, _ + 1, _, _ => -1
  | _ + 1, 0, _, _ => 1
  | n0 + 1, n1 + 1, a, b =>
    let (key0, value0, a1) := ReadSeriesKeyTag a
    let (key1, value1, b1) := ReadSeriesKeyTag b
    if bytesCompare key0 key1 ≠ 0 then bytesCompare key0 key1
    else if bytesCompare value0 value1 ≠ 0 then bytesCompare value0 value1
    else compareTagsLoop n0 n1 a1 b1

/-- `CompareSeriesKeys`: compare two encoded series keys by name, then by
tag count exhaustion, then per-tag by key and value bytes. -/
def CompareSeriesKeys (a b : List Nat) : Int :=
  if a.length = 0 ∧ b.length = 0 then 0
  else if a.length = 0 then -1
  else if b.length = 0 then 1
  else
    let (_, a1) := ReadSeriesKeyLen a
    let (_, b1) := ReadSeriesKeyLen b
    let (name0, a2) := ReadSeriesKeyMeasurement a1
    let (name1, b2) := ReadSeriesKeyMeasurement b1
    let cmpN := bytesCompare name0 name1
    if cmpN ≠ 0 then cmpN
    else
      let (tagN0, a3) := ReadSeriesKeyTagN a2
      let (tagN1, b3) := ReadSeriesKeyTagN b2
      compareTagsLoop tagN0 tagN1 a3 b3

/-- Tuple comparison on decoded tag lists, following the claim: compare
position-wise by (key, value) pairs, the shorter list ordering first
when one is a prefix of the other. -/
def specCompareTagLists : List STag → List STag → Int
  | [], [] => 0
  | [], _ :: _ => -1
  | _ :: _, [] => 1
  | t0 :: r0, t1 :: r1 =>
    if bytesCompare t0.key t1.key ≠ 0 then bytesCompare t0.key t1.key
    else if bytesCompare t0.value t1.value ≠ 0 then bytesCompare t0.value t1.value
    else specCompareTagLists r0 r1

/-- Tuple comparison on (name, tag list), following the claim: first by
name bytes, then by the tag lists. -/
def specCompareSeriesTuples (name0 : List Nat) (tags0 : List STag)
    (name1 : List Nat) (tags1 : List STag) : Int :=
  if bytesCompare name0 name1 ≠ 0 then bytesCompare name0 name1
  else specCompareTagLists tags0 tags1

theorem compareTagsLoop_flatMap (tags0 tags1 : List STag) (r0 r1 : List Nat)
    (hb0 : ∀ t ∈ tags0, t.key.length < 65536 ∧ t.value.length < 65536)
    (hb1 : ∀ t ∈ tags1, t.key.length < 65536 ∧ t.value.length < 65536) :
    compareTagsLoop tags0.length tags1.length
      (tags0.flatMap tagBytes ++ r0) (tags1.flatMap tagBytes ++ r1) =
      specCompareTagLists tags0 tags1 := by
  induction tags0 generalizing tags1 r0 r1 with
  | nil =>
    cases tags1 with
    | nil => simp [compareTagsLoop, specCompareTagLists]
    | cons t1 ts1 => simp [compareTagsLoop, specCompareTagLists]
  | cons t0 ts0 ih =>
    cases tags1 with
    | nil => simp [compareTagsLoop, specCompareTagLists]
    | cons t1 ts1 =>
      have h0 := hb0 t0 (by simp)
      have h1 := hb1 t1 (by simp)
      simp only [List.flatMap_cons, List.length_cons, compareTagsLoop, List.append_assoc,
        readSeriesKeyTag_tagBytes t0 _ h0.1 h0.2, readSeriesKeyTag_tagBytes t1 _ h1.1 h1.2,
        specCompareTagLists]
      rw [ih ts1 _ _ (fun u hu => hb0 u (by simp [hu])) (fun u hu => hb1 u (by simp [hu]))]

/-- C7 — For series keys whose names and tag keys/values are each
shorter than 65 536 bytes, `CompareSeriesKeys` on the encodings equals
the tuple comparison on (name, tag list): first by name bytes, then
position-wise by (key, value) pairs with the shorter tag list first.
The uvarint total-length prefix is skipped, so the result does not
depend on it (it is not a raw byte comparison). -/
theorem C7_compare_encoded_keys (name0 : List Nat) (tags0 : List STag)
    (name1 : List Nat) (tags1 : List STag)
    (hn0 : name0.length < 65536) (hn1 : name1.length < 65536)
    (hb0 : ∀ t ∈ tags0, t.key.length < 65536 ∧ t.value.length < 65536)
    (hb1 : ∀ t ∈ tags1, t.key.length < 65536 ∧ t.value.length < 65536) :
    CompareSeriesKeys (AppendSeriesKey name0 tags0) (AppendSeriesKey name1 tags1) =
      specCompareSeriesTuples name0 tags0 name1 tags1 := by
  have p0 := AppendSeriesKey_length_pos name0 tags0
  have p1 := AppendSeriesKey_length_pos name1 tags1
  rw [CompareSeriesKeys, if_neg (by omega), if_neg (by omega), if_neg (by omega)]
  simp only [AppendSeriesKey, ReadSeriesKeyLen, ReadSeriesKeyMeasurement, ReadSeriesKeyTagN,
    List.append_assoc, readUvarint_putUvarint, readU16be_u16be,
    Nat.mod_eq_of_lt hn0, Nat.mod_eq_of_lt hn1, List.take_left, List.drop_left]
  rw [specCompareSeriesTuples]
  by_cases hcn : bytesCompare name0 name1 ≠ 0
  · rw [if_pos hcn, if_pos hcn]
  · rw [if_neg hcn, if_neg hcn]
    have h := compareTagsLoop_flatMap tags0 tags1 [] [] hb0 hb1
    rw [List.append_nil, List.append_nil] at h
    exact h

/-- C7 witness: comparing `cpu,host=a` against `cpu,host=b` yields `-1`,
matching the tuple comparison. -/
theorem C7_compare_encoded_keys_witness :
    CompareSeriesKeys (AppendSeriesKey [99, 112, 117] [⟨[104], [97]⟩])
        (AppendSeriesKey [99, 112, 117] [⟨[104], [98]⟩]) =
      specCompareSeriesTuples [99, 112, 117] [⟨[104], [97]⟩] [99, 112, 117] [⟨[104], [98]⟩] :=
  C7_compare_encoded_keys _ _ _ _ (by norm_num) (by norm_num) (by decide) (by decide)

/-- For a tagless key whose name is exactly 65 536 bytes, comparing
against the one-byte name `[120]` reads back an empty first name and
returns `-1`. -/
theorem compare_wrapped_name (name0 : List Nat) (hn : name0.length = 65536) :
    CompareSeriesKeys (AppendSeriesKey name0 []) (AppendSeriesKey [120] []) = -1 := by
  have p0 := AppendSeriesKey_length_pos name0 []
  have p1 := AppendSeriesKey_length_pos [120] []
  rw [CompareSeriesKeys, if_neg (by omega), if_neg (by omega), if_neg (by omega)]
  simp only [AppendSeriesKey, ReadSeriesKeyLen, ReadSeriesKeyMeasurement,
    List.append_assoc, readUvarint_putUvarint, readU16be_u16be, hn, Nat.mod_self,
    List.take_zero, List.cons_append, List.nil_append, List.length_cons, List.length_nil]
  norm_num [bytesCompare]

/-- C7 counterexample: for a measurement name of 65 536 bytes the
`uint16` cast wraps the stored name length to `0`, so `CompareSeriesKeys`
reads back an empty name and returns `-1` against the one-byte name
`[120]`, while the tuple comparison of the original keys returns `1` —
the signs differ, refuting the claim for unbounded byte strings. -/
theorem C7_counterexample :
    CompareSeriesKeys (AppendSeriesKey (List.replicate 65536 120) [])
        (AppendSeriesKey [120] []) = -1 ∧
      specCompareSeriesTuples (List.replicate 65536 120) [] [120] [] = 1 := by
  constructor
  · exact compare_wrapped_name (List.replicate 65536 120) (by rw [List.length_replicate])
  · have e1 : List.replicate 65536 (120 : Nat) = 120 :: 120 :: List.replicate 65534 120 := by
      rw [show (65536 : Nat) = 65534 + 1 + 1 by norm_num, List.replicate_succ,
        List.replicate_succ]
    have hb : bytesCompare (120 :: 120 :: List.replicate 65534 120) [120] = 1 := by
      simp [bytesCompare]
    rw [specCompareSeriesTuples, e1, hb]
    norm_num

/-! ## Field schema creation

Two field-creation paths exist in the source:
* `Measurement.createFieldIfNotExists` (in-memory index, `part_000`),
  which checks the 255-field limit;
* `MeasurementFields.CreateFieldIfNotExists` (`shard.go`, used by the
  shard write path through `createFieldsAndMeasurements`), which has no
  limit check and casts `len(m.fields)+1` through `uint8`.
-/

inductive DataType where
  | float
  | integer
  | boolean
  | str
deriving DecidableEq, Repr

/-- `Field`: id (one byte), name, type. -/
structure Field where
  id : Nat
  name : String
  typ : DataType
deriving DecidableEq, Repr

inductive SchemaErr where
  | fieldOverflow
  | fieldTypeConflict
deriving DecidableEq, Repr

/-- `Measurement.FieldByName`: linear scan over the field list. -/
def FieldByName (fields : List Field) (name : String) : Option Field :=
  fields.find? (fun f => f.name == name)

/-- `Measurement.createFieldIfNotExists` (`part_000`): returns
`ErrFieldTypeConflict` on a type clash, `ErrFieldOverflow` when
`len(m.Fields)+1 > 255`, and otherwise appends a field with
`ID = uint8(len(m.Fields)+1)`. -/
def createFieldIfNotExists (fields : List Field) (name : String) (typ : DataType) :
    Except SchemaErr (List Field) :=
  match FieldByName fields name with
  | some f => if f.typ ≠ typ then .error .fieldTypeConflict else .ok fields
  | none =>
    if fields.length + 1 > 255 then .error .fieldOverflow
    else .ok (fields ++ [⟨(fields.length + 1) % 256, name, typ⟩])

/-- `MeasurementFields.CreateFieldIfNotExists` (`shard.go`): the map is
modelled as an insertion-ordered association list; the double-checked
locking collapses to a single lookup in a sequential model.  There is no
overflow check: a new field always gets `ID = uint8(len(m.fields)+1)`. -/
def MFCreateFieldIfNotExists (fields : List Field) (name : String) (typ : DataType) :
    Except SchemaErr (List Field) :=
  match FieldByName fields name with
  | some f => if f.typ ≠ typ then .error .fieldTypeConflict else .ok fields
  | none => .ok (fields ++ [⟨(fields.length + 1) % 256, name, typ⟩])

/-- A measurement state holding 255 distinct fields with ids 1..255, as
produced by 255 successful creations. -/
def fields255 : List Field :=
  (List.range 255).map (fun i => ⟨i + 1, "f" ++ toString i, DataType.float⟩)

/-- C1 — on a measurement that already has 255 distinct fields, the
in-memory index path returns `ErrFieldOverflow`, but the shard write
path (`MeasurementFields.CreateFieldIfNotExists`) accepts a 256th
distinct field and assigns it `ID = uint8(256) = 0`, mutating the field
set and leaving the id outside `1..=255` — refuting the claim for the
shard write path. -/
theorem C1_field_overflow_paths :
    createFieldIfNotExists fields255 "x" .float = .error .fieldOverflow ∧
    MFCreateFieldIfNotExists fields255 "x" .float =
      .ok (fields255 ++ [⟨0, "x", .float⟩]) ∧
    fields255.length = 255 := by
  have hnone : FieldByName fields255 "x" = none := by decide
  have hlen : fields255.length = 255 := by
    simp [fields255]
  refine ⟨?_, ?_, hlen⟩
  · simp only [createFieldIfNotExists, hnone, hlen]
    norm_num
  · simp only [MFCreateFieldIfNotExists, hnone, hlen]

/-! ## Field codec (`part_000`: `FieldCodec.EncodeFields`,
`FieldCodec.DecodeFields`)

Float values are represented by their `math.Float64bits` image (a
64-bit pattern), integers by `Int` (Go `int64`), so the bit-level
encode/decode is exact. -/

/-- The Go source: `maxStringLength = 64 * 1024` (= 65536). -/
def maxStringLength : Nat := 64 * 1024

def u64be (n : Nat) : List Nat :=
  [n / 2 ^ 56 % 256, n / 2 ^ 48 % 256, n / 2 ^ 40 % 256, n / 2 ^ 32 % 256,
   n / 2 ^ 24 % 256, n / 2 ^ 16 % 256, n / 2 ^ 8 % 256, n % 256]

def readU64be : List Nat → Nat × List Nat
  | b0 :: b1 :: b2 :: b3 :: b4 :: b5 :: b6 :: b7 :: rest =>
    (b0 * 2 ^ 56 + b1 * 2 ^ 48 + b2 * 2 ^ 40 + b3 * 2 ^ 32 +
      b4 * 2 ^ 24 + b5 * 2 ^ 16 + b6 * 2 ^ 8 + b7, rest)
  | _ => (0, [])

/-- A dynamic field value (`interface{}`), as a tagged variant. -/
inductive FieldValue where
  | vfloat (bits : Nat)
  | vint (v : Int)
  | vbool (b : Bool)
  | vstr (s : List Nat)
deriving DecidableEq, Repr

/-- `influxql.InspectDataType` restricted to the supported variants. -/
def InspectDataType : FieldValue → DataType
  | .vfloat _ => .float
  | .vint _ => .integer
  | .vbool _ => .boolean
  | .vstr _ => .str

/-- `FieldCodec.fieldsByName` lookup. -/
def fieldsByName (codec : List Field) (n : String) : Option Field :=
  codec.find? (fun f => f.name == n)

/-- `FieldCodec.fieldsByID` lookup. -/
def fieldsByID (codec : List Field) (i : Nat) : Option Field :=
  codec.find? (fun f => f.id == i)

inductive EncErr where
  | panicMissingField
  | typeMismatch
  | panicBadCast
deriving DecidableEq, Repr

/-- `FieldCodec.EncodeFields`: for each (name, value) binding, look the
field up by name (a missing field is a Go panic), check the inspected
type against the declared type, then emit the field id followed by the
type-specific payload.  Strings longer than `maxStringLength` are first
truncated to `maxStringLength` bytes and the length is stored through a
`uint16` cast. -/
def EncodeFields (codec : List Field) :
    List (String × FieldValue) → Except EncErr (List Nat)
  | [] => .ok []
  | (k, v) :: restVals =>
    match fieldsByName codec k with
    | none => .error .panicMissingField
    | some field =>
      if InspectDataType v ≠ field.typ then .error .typeMismatch
      else
        let buf : Except EncErr (List Nat) :=
          match field.typ, v with
          | .float, .vfloat bits => .ok (field.id :: u64be bits)
          | .integer, .vint i => .ok (field.id :: u64be (i.emod (2 ^ 64)).toNat)
          | .boolean, .vbool b => .ok [field.id, if b then 1 else 0]
          | .str, .vstr s =>
            let s1 := if s.length > maxStringLength then s.take maxStringLength else s
            .ok (field.id :: (u16be s1.length ++ s1))
          | _, _ => .error .panicBadCast
        match buf with
        | .error e => .error e
        | .ok bs =>
          match EncodeFields codec restVals with
          | .error e => .error e
          | .ok bRest => .ok (bs ++ bRest)

inductive DecErr where
  | unmappedID
  | shortBuffer
deriving DecidableEq, Repr

/-- The decode loop of `FieldCodec.DecodeFields`, streaming until the
buffer ends.  An unknown field id is `ErrFieldUnmappedID`; a Go
slice-bounds panic on a truncated record is modelled as `shortBuffer`.
The `fuel` argument only makes the recursion structural: every
iteration consumes at least the id byte, so with `fuel ≥ b.length` the
fuel-exhaustion branch is unreachable. -/
def decodeStep (codec : List Field) (fieldID : Nat) (rest : List Nat)
    (next : List Nat → Except DecErr (List (Nat × FieldValue))) :
    Except DecErr (List (Nat × FieldValue)) :=
  match fieldsByID codec fieldID with
  | none => .error .unmappedID
  | some field =>
    match field.typ with
    | .float =>
      if rest.length < 8 then .error .shortBuffer
      else
        match next (rest.drop 8) with
        | .error e => .error e
        | .ok vs => .ok ((fieldID, .vfloat (readU64be rest).1) :: vs)
    | .integer =>
      if rest.length < 8 then .error .shortBuffer
      else
        let u := (readU64be rest).1
        let v : Int := if u < 2 ^ 63 then (u : Int) else (u : Int) - 2 ^ 64
        match next (rest.drop 8) with
        | .error e => .error e
        | .ok vs => .ok ((fieldID, .vint v) :: vs)
    | .boolean =>
      match rest with
      | [] => .error .shortBuffer
      | x :: r1 =>
        match next r1 with
        | .error e => .error e
        | .ok vs => .ok ((fieldID, .vbool (x == 1)) :: vs)
    | .str =>
      if rest.length < 2 then .error .shortBuffer
      else
        let size := (readU16be rest).1
        if rest.length < 2 + size then .error .shortBuffer
        else
          match next (rest.drop (2 + size)) with
          | .error e => .error e
          | .ok vs => .ok ((fieldID, .vstr ((rest.drop 2).take size)) :: vs)

def decodeGo (codec : List Field) : Nat → List Nat → Except DecErr (List (Nat × FieldValue))
  | _, [] => .ok []
  | 0, _ :: _ => .error .shortBuffer
  | fuel + 1, fieldID :: rest => decodeStep codec fieldID rest (decodeGo codec fuel)

/-- `FieldCodec.DecodeFields` on a byte buffer.  The result lists the
decoded `(id, value)` assignments in stream order (the Go map keeps the
last assignment of an id). -/
def DecodeFields (codec : List Field) (b : List Nat) :
    Except DecErr (List (Nat × FieldValue)) :=
  decodeGo codec b.length b

/-- Codec with a single String field `value` of id 1. -/
def strCodec : List Field := [⟨1, "value", .str⟩]

theorem drop_two_cons (a b : Nat) (l : List Nat) : List.drop 2 (a :: b :: l) = l := rfl

/-- C3 — failing input: a string value of length 100 000.  The code
truncates it to `maxStringLength = 65 536` bytes (not 65 535), so the
`uint16` length field wraps to `0`; decoding then reads an empty string
and misparses the 65 536 payload bytes as further records, failing with
`ErrFieldUnmappedID` instead of returning the truncated string. -/
theorem C3_long_string_truncation_bug :
    EncodeFields strCodec [("value", .vstr (List.replicate 100000 97))] =
      .ok (1 :: (u16be 65536 ++ List.replicate 65536 97)) ∧
    DecodeFields strCodec (1 :: (u16be 65536 ++ List.replicate 65536 97)) =
      .error .unmappedID := by
  constructor
  · have hfind : fieldsByName strCodec "value" = some ⟨1, "value", .str⟩ := by decide
    have htyp : InspectDataType (.vstr (List.replicate 100000 97)) = DataType.str := rfl
    have hgt : (List.replicate 100000 (97 : Nat)).length > maxStringLength := by
      rw [List.length_replicate]; norm_num [maxStringLength]
    have hmin : (List.replicate 100000 (97 : Nat)).take maxStringLength =
        List.replicate 65536 97 := by
      rw [List.take_replicate]
      norm_num [maxStringLength]
    rw [EncodeFields]
    simp only [hfind]
    rw [if_neg (by rw [htyp]; simp)]
    rw [if_pos hgt, hmin, EncodeFields]
    simp only [List.length_replicate, List.append_nil]
  · have hu : u16be 65536 = [0, 0] := by norm_num [u16be]
    have hfind : fieldsByID strCodec 1 = some ⟨1, "value", .str⟩ := by decide
    have hfind97 : fieldsByID strCodec 97 = none := by decide
    have e1 : List.replicate 65536 (97 : Nat) = 97 :: List.replicate 65535 97 := by
      rw [show (65536 : Nat) = 65535 + 1 by norm_num, List.replicate_succ]
    have hblen : (1 :: 0 :: 0 :: List.replicate 65536 (97 : Nat)).length = 65538 + 1 := by
      rw [List.length_cons, List.length_cons, List.length_cons, List.length_replicate]
    have hlen2 : (0 :: 0 :: List.replicate 65536 (97 : Nat)).length = 65538 := by
      rw [List.length_cons, List.length_cons, List.length_replicate]
    rw [DecodeFields, hu]
    simp only [List.cons_append, List.nil_append]
    rw [hblen, decodeGo]
    simp only [decodeStep, hfind]
    rw [if_neg (by rw [hlen2]; norm_num)]
    have hp : readU16be (0 :: 0 :: List.replicate 65536 (97 : Nat)) =
        (0, List.replicate 65536 97) := by
      rw [readU16be]
    simp only [hp]
    rw [if_neg (by rw [hlen2]; norm_num)]
    rw [show (2 + 0 : Nat) = 2 by norm_num, drop_two_cons, e1]
    rw [show (65538 : Nat) = 65537 + 1 by norm_num, decodeGo]
    simp only [decodeStep, hfind97]

/-! ## Series-id merge iterator (`part_001`:
`MergeSeriesIDIterators` / `seriesIDMergeIterator.Next`)

An iterator is modelled extensionally as the list of elements it
yields (`SeriesIDElem` values with nonzero ids); an exhausted iterator
yields the zero element forever.  `mergeRun` drives `Next` with fuel
(one unit per emitted element; any fuel above the total input size is
never exhausted). -/

/-- A residual `influxql.Expr` attached to a series element.  The merge
code never builds expressions; `band`/`bor` stand for the AND/OR
combinations the claim talks about. -/
inductive MExpr where
  | lit (n : Nat)
  | band (a b : MExpr)
  | bor (a b : MExpr)
deriving DecidableEq, Repr

/-- `SeriesIDElem`: a series id with an optional residual expression.
`id = 0` is the EOF sentinel. -/
structure MElem where
  id : Nat
  expr : Option MExpr
deriving DecidableEq, Repr

def zeroElem : MElem := ⟨0, none⟩

/-- The buffer-scan loop of `seriesIDMergeIterator.Next`: for each
source in order, refill an empty buffer (`SeriesID == 0`) from the
source — skipping the min-update when the source is exhausted or yields
the zero element — then keep the running first minimum (`elem.SeriesID
== 0 || buf.SeriesID < elem.SeriesID`).  Returns the selected element,
the refilled buffers and the remaining sources. -/
def mergeScan : List MElem → List (List MElem) → MElem →
    MElem × List MElem × List (List MElem)
  | [], _, acc => (acc, [], [])
  | b :: bs, [], acc => (acc, b :: bs, [])
  | b :: bs, s :: ss, acc =>
    if b.id = 0 then
      match s with
      | [] =>
        let r := mergeScan bs ss acc
        (r.1, b :: r.2.1, [] :: r.2.2)
      | e :: srest =>
        if e.id = 0 then
          let r := mergeScan bs ss acc
          (r.1, b :: r.2.1, srest :: r.2.2)
        else
          let acc1 := if acc.id = 0 ∨ e.id < acc.id then e else acc
          let r := mergeScan bs ss acc1
          (r.1, e :: r.2.1, srest :: r.2.2)
    else
      let acc1 := if acc.id = 0 ∨ b.id < acc.id then b else acc
      let r := mergeScan bs ss acc1
      (r.1, b :: r.2.1, s :: r.2.2)

/-- `seriesIDMergeIterator.Next`: scan the buffers, return EOF if no
element remains, otherwise clear every buffer whose id matches the
emitted element (`itr.buf[i].SeriesID = 0`). -/
def mergeNext (bufs : List MElem) (srcs : List (List MElem)) :
    MElem × List MElem × List (List MElem) :=
  let r := mergeScan bufs srcs zeroElem
  if r.1.id = 0 then (zeroElem, r.2.1, r.2.2)
  else (r.1, r.2.1.map (fun b => if b.id = r.1.id then { b with id := 0 } else b), r.2.2)

/-- Repeated `Next` until EOF (or fuel exhaustion). -/
def mergeRun : Nat → List MElem → List (List MElem) → List MElem
  | 0, _, _ => []
  | fuel + 1, bufs, srcs =>
    let r := mergeNext bufs srcs
    if r.1.id = 0 then [] else r.1 :: mergeRun fuel r.2.1 r.2.2

/-- `MergeSeriesIDIterators`: no iterators gives the nil iterator, a
single iterator is returned as is, otherwise the merge iterator starts
with all buffers empty. -/
def MergeSeriesIDIterators (fuel : Nat) (itrs : List (List MElem)) : List MElem :=
  match itrs with
  | [] => []
  | [itr] => itr
  | itrs => mergeRun fuel (itrs.map (fun _ => zeroElem)) itrs

/-- The first buffered element with the minimum id, folding over the
per-source streams in order (`id = 0` means nothing selected yet, and a
later stream replaces the accumulator only with a strictly smaller id —
ties keep the earliest stream's element). -/
def foldMin (acc : MElem) (ss : List (List MElem)) : MElem :=
  ss.foldl
    (fun a s =>
      match s with
      | [] => a
      | e :: _ => if a.id = 0 ∨ e.id < a.id then e else a)
    acc

/-- The claim's view of one merge step: the minimum id currently
buffered across the sources, ties resolved to the first source. -/
def specMinHead (ss : List (List MElem)) : MElem := foldMin zeroElem ss

/-- Consume the head of every stream whose head id equals `k`. -/
def dropHeadsEq (k : Nat) (ss : List (List MElem)) : List (List MElem) :=
  ss.map (fun s =>
    match s with
    | [] => []
    | e :: rest => if e.id = k then rest else e :: rest)

/-- The amended claim's merge, written from its words: at each step emit
the element of the first stream holding the minimum id, then drop that
id's occurrence from every stream; each distinct id is emitted once, in
ascending order. -/
def specKWayMerge : Nat → List (List MElem) → List MElem
  | 0, _ => []
  | fuel + 1, ss =>
    let m := specMinHead ss
    if m.id = 0 then [] else m :: specKWayMerge fuel (dropHeadsEq m.id ss)

/-- Combined view of a buffer/source pair: a nonempty buffer stands
before its remaining source. -/
def combine (bufs : List MElem) (srcs : List (List MElem)) : List (List MElem) :=
  List.zipWith (fun b s => if b.id = 0 then s else b :: s) bufs srcs

def fillBuf (b : MElem) (s : List MElem) : MElem :=
  if b.id = 0 then (match s with | [] => b | e :: _ => e) else b

def fillSrc (b : MElem) (s : List MElem) : List MElem :=
  if b.id = 0 then s.tail else s

/-- All elements of all streams have nonzero ids. -/
def NoZeroIds (ss : List (List MElem)) : Prop :=
  ∀ s ∈ ss, ∀ e ∈ s, e.id ≠ 0

/-- Every stream is strictly ascending in id. -/
def StreamsAscending (ss : List (List MElem)) : Prop :=
  ∀ s ∈ ss, s.Pairwise (fun a b => a.id < b.id)

def totalLen (ss : List (List MElem)) : Nat := (ss.map List.length).sum

instance : DecidablePred NoZeroIds := fun ss =>
  inferInstanceAs (Decidable (∀ s ∈ ss, ∀ e ∈ s, e.id ≠ 0))

instance : DecidableRel (fun a b : MElem => a.id < b.id) := fun a b =>
  inferInstanceAs (Decidable (a.id < b.id))

instance : DecidablePred StreamsAscending := fun ss => by
  unfold StreamsAscending
  infer_instance

theorem combine_nil (srcs : List (List MElem)) : combine [] srcs = [] := by
  simp [combine]

theorem combine_cons (b : MElem) (bs : List MElem) (s : List MElem)
    (ss : List (List MElem)) :
    combine (b :: bs) (s :: ss) = (if b.id = 0 then s else b :: s) :: combine bs ss := by
  simp [combine]

theorem foldMin_nil (acc : MElem) : foldMin acc [] = acc := rfl

theorem foldMin_cons (acc : MElem) (s : List MElem) (ss : List (List MElem)) :
    foldMin acc (s :: ss) =
      foldMin
        (match s with
          | [] => acc
          | e :: _ => if acc.id = 0 ∨ e.id < acc.id then e else acc) ss := by
  simp [foldMin]

theorem dropHeadsEq_nil (k : Nat) : dropHeadsEq k [] = [] := rfl

theorem dropHeadsEq_cons (k : Nat) (s : List MElem) (ss : List (List MElem)) :
    dropHeadsEq k (s :: ss) =
      (match s with
        | [] => []
        | e :: rest => if e.id = k then rest else e :: rest) :: dropHeadsEq k ss := by
  simp [dropHeadsEq]

theorem mergeScan_spec (bufs : List MElem) :
    ∀ (srcs : List (List MElem)) (acc : MElem), bufs.length = srcs.length →
      NoZeroIds srcs →
      mergeScan bufs srcs acc =
        (foldMin acc (combine bufs srcs),
          List.zipWith fillBuf bufs srcs,
          List.zipWith fillSrc bufs srcs) := by
  induction bufs with
  | nil =>
    intro srcs acc hlen _
    cases srcs with
    | nil => simp [mergeScan, foldMin, combine]
    | cons s ss => simp at hlen
  | cons b bs ih =>
    intro srcs acc hlen hz
    cases srcs with
    | nil => simp at hlen
    | cons s ss =>
      have hlen' : bs.length = ss.length := by simpa using hlen
      have hz' : NoZeroIds ss := fun u hu => hz u (by simp [hu])
      by_cases hb : b.id = 0
      · cases s with
        | nil =>
          simp only [mergeScan, if_pos hb]
          rw [ih ss acc hlen' hz']
          simp [combine_cons, foldMin_cons, fillBuf, fillSrc, hb]
        | cons e srest =>
          have he : e.id ≠ 0 := hz (e :: srest) (by simp) e (by simp)
          simp only [mergeScan, if_pos hb, if_neg he]
          rw [ih ss _ hlen' hz']
          simp [combine_cons, foldMin_cons, fillBuf, fillSrc, hb]
      · simp only [mergeScan, if_neg hb]
        rw [ih ss _ hlen' hz']
        simp [combine_cons, foldMin_cons, fillBuf, fillSrc, hb]

theorem combine_fill (bufs : List MElem) :
    ∀ srcs : List (List MElem), bufs.length = srcs.length → NoZeroIds srcs →
      combine (List.zipWith fillBuf bufs srcs) (List.zipWith fillSrc bufs srcs) =
        combine bufs srcs := by
  induction bufs with
  | nil => intro srcs _ _; simp [combine]
  | cons b bs ih =>
    intro srcs hlen hz
    cases srcs with
    | nil => simp at hlen
    | cons s ss =>
      have hlen' : bs.length = ss.length := by simpa using hlen
      have hz' : NoZeroIds ss := fun u hu => hz u (by simp [hu])
      by_cases hb : b.id = 0
      · cases s with
        | nil => simp [combine_cons, fillBuf, fillSrc, hb, ih ss hlen' hz']
        | cons e srest =>
          have he : e.id ≠ 0 := hz (e :: srest) (by simp) e (by simp)
          simp [combine_cons, fillBuf, fillSrc, hb, he, ih ss hlen' hz']
      · simp [combine_cons, fillBuf, fillSrc, hb, ih ss hlen' hz']

theorem combine_clear (k : Nat) (hk : k ≠ 0) (bufs : List MElem) :
    ∀ srcs : List (List MElem), bufs.length = srcs.length → NoZeroIds srcs →
      combine
        ((List.zipWith fillBuf bufs srcs).map
          (fun b => if b.id = k then { b with id := 0 } else b))
        (List.zipWith fillSrc bufs srcs) =
        dropHeadsEq k (combine bufs srcs) := by
  induction bufs with
  | nil => intro srcs _ _; simp [combine, dropHeadsEq]
  | cons b bs ih =>
    intro srcs hlen hz
    cases srcs with
    | nil => simp at hlen
    | cons s ss =>
      have hlen' : bs.length = ss.length := by simpa using hlen
      have hz' : NoZeroIds ss := fun u hu => hz u (by simp [hu])
      by_cases hb : b.id = 0
      · cases s with
        | nil =>
          have hfb : fillBuf b [] = b := by simp [fillBuf, hb]
          have hfs : fillSrc b [] = [] := by simp [fillSrc, hb]
          have hbk : ¬ b.id = k := by rw [hb]; exact fun h => hk h.symm
          have h0k : ¬ (0 : Nat) = k := fun h => hk h.symm
          simp [combine_cons, dropHeadsEq_cons, hfb, hfs, hb, hbk, h0k, hk,
            ih ss hlen' hz']
        | cons e srest =>
          have he : e.id ≠ 0 := hz (e :: srest) (by simp) e (by simp)
          have hfb : fillBuf b (e :: srest) = e := by simp [fillBuf, hb]
          have hfs : fillSrc b (e :: srest) = srest := by simp [fillSrc, hb]
          by_cases hek : e.id = k
          · simp [combine_cons, dropHeadsEq_cons, hfb, hfs, hb, he, hek, hk,
              ih ss hlen' hz']
          · simp [combine_cons, dropHeadsEq_cons, hfb, hfs, hb, he, hek, hk,
              ih ss hlen' hz']
      · have hfb : fillBuf b s = b := by simp [fillBuf, hb]
        have hfs : fillSrc b s = s := by simp [fillSrc, hb]
        by_cases hbk : b.id = k
        · simp [combine_cons, dropHeadsEq_cons, hfb, hfs, hb, hbk, hk,
            ih ss hlen' hz']
        · simp [combine_cons, dropHeadsEq_cons, hfb, hfs, hb, hbk, hk,
            ih ss hlen' hz']

theorem fillSrc_subset (b : MElem) (s : List MElem) : ∀ e ∈ fillSrc b s, e ∈ s := by
  intro e he
  unfold fillSrc at he
  split at he
  · exact List.mem_of_mem_tail he
  · exact he

theorem noZeroIds_fillSrc (bufs : List MElem) :
    ∀ srcs : List (List MElem), NoZeroIds srcs →
      NoZeroIds (List.zipWith fillSrc bufs srcs) := by
  induction bufs with
  | nil => intro srcs _; intro u hu; simp at hu
  | cons b bs ih =>
    intro srcs hz
    cases srcs with
    | nil => intro u hu; simp at hu
    | cons s ss =>
      have hz' : NoZeroIds ss := fun u hu => hz u (by simp [hu])
      intro u hu e he
      rcases List.mem_cons.mp (by simpa using hu) with h | h
      · exact hz s (by simp) e (fillSrc_subset b s e (h ▸ he))
      · exact ih ss hz' u h e he

theorem mergeRun_spec (fuel : Nat) :
    ∀ (bufs : List MElem) (srcs : List (List MElem)), bufs.length = srcs.length →
      NoZeroIds srcs →
      mergeRun fuel bufs srcs = specKWayMerge fuel (combine bufs srcs) := by
  induction fuel with
  | zero => intro bufs srcs _ _; rw [mergeRun, specKWayMerge]
  | succ fuel ih =>
    intro bufs srcs hlen hz
    rw [specKWayMerge]
    simp only [mergeRun, mergeNext, mergeScan_spec bufs srcs zeroElem hlen hz]
    by_cases hm : (foldMin zeroElem (combine bufs srcs)).id = 0
    · have hm' : (foldMin { id := 0, expr := none } (combine bufs srcs)).id = 0 := hm
      simp [specMinHead, zeroElem, hm, hm']
    · have hm' : ¬ (foldMin { id := 0, expr := none } (combine bufs srcs)).id = 0 := hm
      simp only [specMinHead, if_neg hm, if_neg hm']
      rw [ih _ _ (by simp [List.length_map, List.length_zipWith])
        (noZeroIds_fillSrc bufs srcs hz)]
      rw [combine_clear (foldMin zeroElem (combine bufs srcs)).id hm bufs srcs hlen hz]

theorem combine_init (srcs : List (List MElem)) :
    combine (srcs.map (fun _ => zeroElem)) srcs = srcs := by
  induction srcs with
  | nil => simp [combine]
  | cons s ss ih =>
    rw [List.map_cons, combine_cons, ih]
    simp [zeroElem]

theorem specKWayMerge_single (fuel : Nat) :
    ∀ s : List MElem, (∀ e ∈ s, e.id ≠ 0) → s.length < fuel →
      specKWayMerge fuel [s] = s := by
  induction fuel with
  | zero => intro s _ h; omega
  | succ fuel ih =>
    intro s hz hlen
    cases s with
    | nil => rw [specKWayMerge]; simp [specMinHead, foldMin, zeroElem]
    | cons e r =>
      have he : e.id ≠ 0 := hz e (by simp)
      have hmin : specMinHead [e :: r] = e := by
        simp [specMinHead, foldMin, zeroElem]
      rw [specKWayMerge]
      simp only [hmin, if_neg he]
      have hdrop : dropHeadsEq e.id [e :: r] = [r] := by
        simp [dropHeadsEq]
      rw [hdrop, ih r (fun u hu => hz u (by simp [hu])) (by simp at hlen; omega)]

theorem foldMin_cases (ss : List (List MElem)) :
    ∀ acc : MElem, foldMin acc ss = acc ∨ ∃ s ∈ ss, ∃ r, s = foldMin acc ss :: r := by
  induction ss with
  | nil => intro acc; exact Or.inl rfl
  | cons s ss ih =>
    intro acc
    cases s with
    | nil =>
      simp only [foldMin_cons]
      rcases ih acc with h | ⟨u, hu, r, hr⟩
      · exact Or.inl h
      · exact Or.inr ⟨u, by simp [hu], r, hr⟩
    | cons e srest =>
      simp only [foldMin_cons]
      by_cases hc : acc.id = 0 ∨ e.id < acc.id
      · rw [if_pos hc]
        rcases ih e with h | ⟨u, hu, r, hr⟩
        · exact Or.inr ⟨e :: srest, by simp, srest, by rw [h]⟩
        · exact Or.inr ⟨u, by simp [hu], r, hr⟩
      · rw [if_neg hc]
        rcases ih acc with h | ⟨u, hu, r, hr⟩
        · exact Or.inl h
        · exact Or.inr ⟨u, by simp [hu], r, hr⟩

theorem foldMin_min (ss : List (List MElem)) :
    ∀ acc : MElem, (∀ s ∈ ss, ∀ x ∈ s, x.id ≠ 0) →
      (acc.id ≠ 0 → (foldMin acc ss).id ≤ acc.id ∧ (foldMin acc ss).id ≠ 0) ∧
      (∀ s ∈ ss, ∀ e r, s = e :: r →
        (foldMin acc ss).id ≤ e.id ∧ (foldMin acc ss).id ≠ 0) := by
  induction ss with
  | nil =>
    intro acc _
    exact ⟨fun h => ⟨le_refl _, h⟩, fun s hs => absurd hs (List.not_mem_nil s)⟩
  | cons s ss ih =>
    intro acc hz
    have hz' : ∀ u ∈ ss, ∀ x ∈ u, x.id ≠ 0 := fun u hu => hz u (List.mem_cons_of_mem s hu)
    cases s with
    | nil =>
      simp only [foldMin_cons]
      obtain ⟨P1, P2⟩ := ih acc hz'
      refine ⟨P1, ?_⟩
      intro u hu e r hr
      rcases List.mem_cons.mp hu with h | h
      · rw [h] at hr; cases hr
      · exact P2 u h e r hr
    | cons e0 srest =>
      simp only [foldMin_cons]
      have he0 : e0.id ≠ 0 := hz (e0 :: srest) (List.mem_cons_self _ _) e0 (List.mem_cons_self _ _)
      by_cases hc : acc.id = 0 ∨ e0.id < acc.id
      · rw [if_pos hc]
        obtain ⟨P1, P2⟩ := ih e0 hz'
        obtain ⟨Q1, Q2⟩ := P1 he0
        constructor
        · intro hacc
          rcases hc with h | h
          · exact absurd h hacc
          · exact ⟨le_trans Q1 (le_of_lt h), Q2⟩
        · intro u hu e r hr
          rcases List.mem_cons.mp hu with h | h
          · have h2 : e0 :: srest = e :: r := h ▸ hr
            injection h2 with h3 _
            rw [← h3]
            exact ⟨Q1, Q2⟩
          · exact P2 u h e r hr
      · rw [if_neg hc]
        push_neg at hc
        obtain ⟨hacc0, hle⟩ := hc
        obtain ⟨P1, P2⟩ := ih acc hz'
        obtain ⟨Q1, Q2⟩ := P1 hacc0
        refine ⟨fun _ => ⟨Q1, Q2⟩, ?_⟩
        intro u hu e r hr
        rcases List.mem_cons.mp hu with h | h
        · have h2 : e0 :: srest = e :: r := h ▸ hr
          injection h2 with h3 _
          rw [← h3]
          exact ⟨le_trans Q1 hle, Q2⟩
        · exact P2 u h e r hr

theorem dropHeadsEq_mem (k : Nat) (ss : List (List MElem)) :
    ∀ u ∈ dropHeadsEq k ss, ∃ s ∈ ss, ∀ e ∈ u, e ∈ s := by
  intro u hu
  rcases List.mem_map.mp hu with ⟨s, hs, hmap⟩
  refine ⟨s, hs, ?_⟩
  intro e he
  cases s with
  | nil =>
    have h0 : u = ([] : List MElem) := hmap.symm
    rw [h0] at he
    simp at he
  | cons e0 r =>
    by_cases h : e0.id = k
    · have hur : u = r := by rw [← hmap]; simp [h]
      rw [hur] at he
      exact List.mem_cons_of_mem e0 he
    · have hur : u = e0 :: r := by rw [← hmap]; simp [h]
      rw [hur] at he
      exact he

theorem noZeroIds_dropHeadsEq (k : Nat) (ss : List (List MElem)) (hz : NoZeroIds ss) :
    NoZeroIds (dropHeadsEq k ss) := by
  intro u hu e he
  rcases dropHeadsEq_mem k ss u hu with ⟨s, hs, hsub⟩
  exact hz s hs e (hsub e he)

theorem streamsAscending_dropHeadsEq (k : Nat) (ss : List (List MElem))
    (ha : StreamsAscending ss) : StreamsAscending (dropHeadsEq k ss) := by
  intro u hu
  rcases List.mem_map.mp hu with ⟨s, hs, hmap⟩
  have hps := ha s hs
  cases s with
  | nil =>
    have h0 : u = ([] : List MElem) := hmap.symm
    rw [h0]
    exact List.Pairwise.nil
  | cons e0 r =>
    by_cases h : e0.id = k
    · have hur : u = r := by rw [← hmap]; simp [h]
      rw [hur]
      exact (List.pairwise_cons.mp hps).2
    · have hur : u = e0 :: r := by rw [← hmap]; simp [h]
      rw [hur]
      exact hps

theorem dropHeadsEq_lt (k : Nat) (ss : List (List MElem)) (ha : StreamsAscending ss)
    (hmin : ∀ s ∈ ss, ∀ e0 r, s = e0 :: r → k ≤ e0.id) :
    ∀ u ∈ dropHeadsEq k ss, ∀ e ∈ u, k < e.id := by
  intro u hu e he
  rcases List.mem_map.mp hu with ⟨s, hs, hmap⟩
  have hps := ha s hs
  cases s with
  | nil =>
    have h0 : u = ([] : List MElem) := hmap.symm
    rw [h0] at he; simp at he
  | cons e0 r =>
    have hk := hmin (e0 :: r) hs e0 r rfl
    have hpc := List.pairwise_cons.mp hps
    by_cases h : e0.id = k
    · have hur : u = r := by rw [← hmap]; simp [h]
      rw [hur] at he
      have := hpc.1 e he
      omega
    · have hur : u = e0 :: r := by rw [← hmap]; simp [h]
      rw [hur] at he
      rcases List.mem_cons.mp he with h1 | h1
      · rw [h1]; omega
      · have := hpc.1 e h1; omega

theorem specKWayMerge_nil (fuel : Nat) : specKWayMerge fuel [] = [] := by
  cases fuel with
  | zero => rw [specKWayMerge]
  | succ fuel => rw [specKWayMerge]; simp [specMinHead, foldMin, zeroElem]

theorem specKWayMerge_mem (fuel : Nat) :
    ∀ ss : List (List MElem), ∀ e ∈ specKWayMerge fuel ss, ∃ s ∈ ss, e ∈ s := by
  induction fuel with
  | zero => intro ss e he; rw [specKWayMerge] at he; simp at he
  | succ fuel ih =>
    intro ss e he
    rw [specKWayMerge] at he
    by_cases hm : (specMinHead ss).id = 0
    · rw [if_pos hm] at he; simp at he
    · rw [if_neg hm] at he
      rcases List.mem_cons.mp he with h | h
      · rcases foldMin_cases ss zeroElem with h0 | ⟨s, hs, r, hr⟩
        · have : (specMinHead ss).id = 0 := by rw [specMinHead, h0]; rfl
          exact absurd this hm
        · exact ⟨s, hs, by rw [h, specMinHead, hr]; exact List.mem_cons_self _ _⟩
      · rcases ih (dropHeadsEq (specMinHead ss).id ss) e h with ⟨u, hu, heu⟩
        rcases dropHeadsEq_mem _ ss u hu with ⟨s, hs, hsub⟩
        exact ⟨s, hs, hsub e heu⟩

theorem specKWayMerge_ascending (fuel : Nat) :
    ∀ ss : List (List MElem), NoZeroIds ss → StreamsAscending ss →
      (specKWayMerge fuel ss).Pairwise (fun a b => a.id < b.id) := by
  induction fuel with
  | zero => intro ss _ _; rw [specKWayMerge]; exact List.Pairwise.nil
  | succ fuel ih =>
    intro ss hz ha
    rw [specKWayMerge]
    by_cases hm : (specMinHead ss).id = 0
    · rw [if_pos hm]; exact List.Pairwise.nil
    · rw [if_neg hm]
      have hmin : ∀ s ∈ ss, ∀ e0 r, s = e0 :: r → (specMinHead ss).id ≤ e0.id :=
        fun s hs e0 r hr => ((foldMin_min ss zeroElem hz).2 s hs e0 r hr).1
      refine List.pairwise_cons.mpr
        ⟨?_, ih _ (noZeroIds_dropHeadsEq _ ss hz) (streamsAscending_dropHeadsEq _ ss ha)⟩
      intro e he
      rcases specKWayMerge_mem fuel _ e he with ⟨u, hu, heu⟩
      exact dropHeadsEq_lt (specMinHead ss).id ss ha hmin u hu e heu

theorem totalLen_cons (s : List MElem) (ss : List (List MElem)) :
    totalLen (s :: ss) = s.length + totalLen ss := by
  simp [totalLen]

theorem totalLen_dropHeadsEq_le (k : Nat) (ss : List (List MElem)) :
    totalLen (dropHeadsEq k ss) ≤ totalLen ss := by
  induction ss with
  | nil => simp [dropHeadsEq, totalLen]
  | cons s ss ih =>
    rw [dropHeadsEq_cons, totalLen_cons, totalLen_cons]
    have hhead : (match s with
        | [] => ([] : List MElem)
        | e :: rest => if e.id = k then rest else e :: rest).length ≤ s.length := by
      cases s with
      | nil => simp
      | cons e r =>
        by_cases h : e.id = k
        · simp [h]
        · simp [h]
    omega

theorem totalLen_dropHeadsEq_lt (k : Nat) (ss : List (List MElem)) :
    ∀ e r, (e :: r) ∈ ss → e.id = k →
      totalLen (dropHeadsEq k ss) < totalLen ss := by
  induction ss with
  | nil => intro e r h _; simp at h
  | cons s0 ss ih =>
    intro e r h hek
    rw [dropHeadsEq_cons, totalLen_cons, totalLen_cons]
    have hle := totalLen_dropHeadsEq_le k ss
    rcases List.mem_cons.mp h with h0 | h0
    · rw [← h0]
      have hhead : (match e :: r with
          | [] => ([] : List MElem)
          | e0 :: rest => if e0.id = k then rest else e0 :: rest) = r := by
        simp [hek]
      rw [hhead]
      simp only [List.length_cons]
      omega
    · have hlt := ih e r h0 hek
      have hhead : (match s0 with
          | [] => ([] : List MElem)
          | e0 :: rest => if e0.id = k then rest else e0 :: rest).length ≤ s0.length := by
        cases s0 with
        | nil => simp
        | cons e0 rest =>
          by_cases h1 : e0.id = k
          · simp [h1]
          · simp [h1]
      omega

theorem specKWayMerge_complete (fuel : Nat) :
    ∀ ss : List (List MElem), NoZeroIds ss → totalLen ss < fuel →
      ∀ s ∈ ss, ∀ e ∈ s, ∃ q ∈ specKWayMerge fuel ss, q.id = e.id := by
  induction fuel with
  | zero => intro ss _ h; omega
  | succ fuel ih =>
    intro ss hz hfuel s hs e he
    obtain ⟨e0, r, rfl⟩ : ∃ e0 r, s = e0 :: r := by
      cases s with
      | nil => simp at he
      | cons a b => exact ⟨a, b, rfl⟩
    have hmin := (foldMin_min ss zeroElem hz).2 (e0 :: r) hs e0 r rfl
    have hm : (specMinHead ss).id ≠ 0 := hmin.2
    rw [specKWayMerge, if_neg hm]
    by_cases hq : (specMinHead ss).id = e.id
    · exact ⟨specMinHead ss, List.mem_cons_self _ _, hq⟩
    · have hsurv : ∃ u ∈ dropHeadsEq (specMinHead ss).id ss, ∃ q ∈ u, q.id = e.id := by
        by_cases h0 : e0.id = (specMinHead ss).id
        · have hene : e ≠ e0 := fun hEq => hq (by rw [hEq]; exact h0.symm)
          have her : e ∈ r := by
            rcases List.mem_cons.mp he with h1 | h1
            · exact absurd h1 hene
            · exact h1
          refine ⟨r, ?_, e, her, rfl⟩
          have hmem := List.mem_map_of_mem
            (fun s => match s with
              | [] => ([] : List MElem)
              | q :: rest => if q.id = (specMinHead ss).id then rest else q :: rest) hs
          simpa [dropHeadsEq, h0] using hmem
        · refine ⟨e0 :: r, ?_, e, he, rfl⟩
          have hmem := List.mem_map_of_mem
            (fun s => match s with
              | [] => ([] : List MElem)
              | q :: rest => if q.id = (specMinHead ss).id then rest else q :: rest) hs
          simpa [dropHeadsEq, h0] using hmem
      rcases hsurv with ⟨u, hu, q0, hq0, hid⟩
      rcases foldMin_cases ss zeroElem with hC | ⟨sm, hsm, rm, hrm⟩
      · have : (specMinHead ss).id = 0 := by rw [specMinHead, hC]; rfl
        exact absurd this hm
      · have hmem2 : (foldMin zeroElem ss :: rm) ∈ ss := hrm ▸ hsm
        have hdec := totalLen_dropHeadsEq_lt (specMinHead ss).id ss
          (foldMin zeroElem ss) rm hmem2 rfl
        rcases ih (dropHeadsEq (specMinHead ss).id ss)
          (noZeroIds_dropHeadsEq _ ss hz) (by omega) u hu q0 hq0 with ⟨q, hqmem, hqid⟩
        exact ⟨q, List.mem_cons_of_mem _ hqmem, by rw [hqid, hid]⟩

/-- C4 (amended): for sources of strictly ascending nonzero series ids
and enough fuel, `MergeSeriesIDIterators` equals the k-way merge that at
each step emits the element of the FIRST source holding the minimum
buffered id (ties discard the other sources' residual expressions
rather than AND-combining them); its output is strictly ascending and
carries exactly the ids present in some source, each once. -/
theorem C4_merge_first_wins (fuel : Nat) (srcs : List (List MElem))
    (hz : NoZeroIds srcs) (ha : StreamsAscending srcs)
    (hfuel : totalLen srcs < fuel) :
    MergeSeriesIDIterators fuel srcs = specKWayMerge fuel srcs ∧
    (MergeSeriesIDIterators fuel srcs).Pairwise (fun a b => a.id < b.id) ∧
    ∀ i : Nat, (∃ q ∈ MergeSeriesIDIterators fuel srcs, q.id = i) ↔
      (∃ s ∈ srcs, ∃ e ∈ s, e.id = i) := by
  have heq : MergeSeriesIDIterators fuel srcs = specKWayMerge fuel srcs := by
    cases srcs with
    | nil => rw [specKWayMerge_nil]; rfl
    | cons s ss =>
      cases ss with
      | nil =>
        have hlen : s.length < fuel := by
          rw [totalLen_cons] at hfuel
          omega
        have h1 : MergeSeriesIDIterators fuel [s] = s := rfl
        rw [h1, specKWayMerge_single fuel s (hz s (by simp)) hlen]
      | cons s2 ss2 =>
        show mergeRun fuel ((s :: s2 :: ss2).map (fun _ => zeroElem)) (s :: s2 :: ss2) = _
        rw [mergeRun_spec fuel _ _ (by simp) hz, combine_init]
  refine ⟨heq, ?_, ?_⟩
  · rw [heq]; exact specKWayMerge_ascending fuel srcs hz ha
  · intro i
    rw [heq]
    constructor
    · rintro ⟨q, hq, rfl⟩
      rcases specKWayMerge_mem fuel srcs q hq with ⟨s, hs, hqs⟩
      exact ⟨s, hs, q, hqs, rfl⟩
    · rintro ⟨s, hs, e, he, rfl⟩
      rcases specKWayMerge_complete fuel srcs hz hfuel s hs e he with ⟨q, hq, hqi⟩
      exact ⟨q, hq, hqi⟩

theorem C4_merge_first_wins_witness :
    NoZeroIds [[⟨1, some (MExpr.lit 1)⟩, ⟨3, none⟩], [⟨2, none⟩, ⟨3, some (MExpr.lit 2)⟩]] ∧
    StreamsAscending [[⟨1, some (MExpr.lit 1)⟩, ⟨3, none⟩], [⟨2, none⟩, ⟨3, some (MExpr.lit 2)⟩]] ∧
    totalLen [[⟨1, some (MExpr.lit 1)⟩, ⟨3, none⟩], [⟨2, none⟩, ⟨3, some (MExpr.lit 2)⟩]] < 9 ∧
    MergeSeriesIDIterators 9
        [[⟨1, some (MExpr.lit 1)⟩, ⟨3, none⟩], [⟨2, none⟩, ⟨3, some (MExpr.lit 2)⟩]] =
      specKWayMerge 9
        [[⟨1, some (MExpr.lit 1)⟩, ⟨3, none⟩], [⟨2, none⟩, ⟨3, some (MExpr.lit 2)⟩]] :=
  ⟨by decide, by decide, by decide,
    (C4_merge_first_wins 9
      [[⟨1, some (MExpr.lit 1)⟩, ⟨3, none⟩], [⟨2, none⟩, ⟨3, some (MExpr.lit 2)⟩]]
      (by decide) (by decide) (by decide)).1⟩

/-- C4 counterexample to the claim as written: two sources yield the
same id 1 with residual expressions `lit 1` and `lit 2`; the merge
emits the first source's element unchanged, whose expression is not an
AND-combination of the two residuals (it is not `band` of anything). -/
theorem C4_counterexample :
    MergeSeriesIDIterators 4 [[⟨1, some (MExpr.lit 1)⟩], [⟨1, some (MExpr.lit 2)⟩]] =
      [⟨1, some (MExpr.lit 1)⟩] ∧
    ∀ a b : MExpr, some (MExpr.lit 1) ≠ some (MExpr.band a b) := by
  refine ⟨by decide, ?_⟩
  intro a b h
  have h2 := Option.some.inj h
  cases h2

/-! ### C2: `IndexSet.matchTagValueEqualNotEmptySeriesIDIterator`

The tag-value loop of the `key =~ rx` (non-empty-matching) evaluator,
embedded with an explicit tag-value stream: `vitr = none` models a nil
tag-value iterator (unknown key), `some vals` its remaining values;
`postings v` is the `TagValueSeriesIDIterator` stream for value `v`;
`rx` is the regular expression's match function (`rx []` is its answer
on the nil byte slice returned by an exhausted iterator).  The loop in
the source reads `e, err := vitr.Next(); if err != nil { ... } else if
e != nil { break }`, so it BREAKS as soon as a value exists and only
keeps iterating on the nil value; fuel-exhaustion (`none`) models the
resulting non-termination when the value stream is empty. -/

def matchLoopNE (postings : List Nat → List MElem) (rx : List Nat → Bool) :
    Nat → List (List Nat) → List (List MElem) → Option (List (List MElem))
  | 0, _, _ => none
  | fuel + 1, vals, itrs =>
    match vals with
    | _ :: _ => some itrs
    | [] =>
      if rx [] then matchLoopNE postings rx fuel [] (itrs ++ [postings []])
      else matchLoopNE postings rx fuel [] itrs

def matchTagValueEqualNotEmpty (fuel : Nat) (vitr : Option (List (List Nat)))
    (postings : List Nat → List MElem) (rx : List Nat → Bool) :
    Option (List MElem) :=
  match vitr with
  | none => some []
  | some vals =>
    match matchLoopNE postings rx fuel vals [] with
    | none => none
    | some itrs => some (MergeSeriesIDIterators fuel itrs)

/-- The claim's expected result: the union (here: concatenation) of the
posting lists of exactly the tag values matching the regex. -/
def specMatchUnion (vals : List (List Nat)) (postings : List Nat → List MElem)
    (rx : List Nat → Bool) : List MElem :=
  (vals.filter (fun v => rx v)).flatMap postings

/-- C2: the evaluator does not return the union of the matching values'
posting lists.  With one tag value `"a"` whose posting list holds
series 5 and a regex matching exactly `"a"` (not the empty string), the
claim expects exactly that posting list, but the inverted loop break
(`else if e != nil { break }`) exits before processing any value, so
the code merges zero iterators and yields no series at all. -/
theorem C2_match_equal_not_empty_bug :
    matchTagValueEqualNotEmpty 4 (some [[97]])
        (fun v => if v == [97] then [⟨5, none⟩] else []) (fun v => v == [97]) =
      some [] ∧
    specMatchUnion [[97]]
        (fun v => if v == [97] then [⟨5, none⟩] else []) (fun v => v == [97]) =
      [⟨5, none⟩] ∧
    some ([] : List MElem) ≠ some [(⟨5, none⟩ : MElem)] := by
  exact ⟨rfl, rfl, by decide⟩

/-! ### C8: `Measurement.addSeries` / `Measurement.dropSeries`

The in-memory measurement index, with Go maps embedded as association
lists (`seriesByID : id ↦ tags`, `seriesByTagKeyValue : tag key ↦ tag
value ↦ posting list`).  The `m.series` map keyed by the marshalled
tag set is not modelled: it holds no series ids and does not interact
with the sortedness invariant.  Go's random map-iteration order over
`s.Tags` becomes the order of the tags list. -/

def getAssoc {α : Type} (l : List (String × α)) (k : String) (d : α) : α :=
  match l.find? (fun p => p.1 == k) with
  | none => d
  | some p => p.2

def setAssoc {α : Type} (l : List (String × α)) (k : String) (v : α) :
    List (String × α) :=
  if l.any (fun p => p.1 == k) then
    l.map (fun p => if p.1 == k then (k, v) else p)
  else l ++ [(k, v)]

/-- `append` + conditional `sort.Sort`: append the id, then sort only
if the appended last element is smaller than the previous last
(`len(ids) > 1 && ids[len(ids)-1] < ids[len(ids)-2]`). -/
def appendMaybeSort (ids : List Nat) (id : Nat) : List Nat :=
  if (ids ++ [id]).length > 1 ∧
      (ids ++ [id]).getD ((ids ++ [id]).length - 1) 0 <
        (ids ++ [id]).getD ((ids ++ [id]).length - 2) 0 then
    List.insertionSort (· ≤ ·) (ids ++ [id])
  else ids ++ [id]

structure Meas where
  seriesByID : List (Nat × List (String × String))
  seriesIDs : List Nat
  seriesByTagKeyValue : List (String × List (String × List Nat))

/-- Body of the per-tag loop of `addSeries`: fetch the key's value map
(nil gives a fresh one), fetch the value's posting list, append the id
with the conditional sort, and store both levels back. -/
def addTagStep (id : Nat) (stkv : List (String × List (String × List Nat)))
    (t : String × String) : List (String × List (String × List Nat)) :=
  setAssoc stkv t.1
    (setAssoc (getAssoc stkv t.1 []) t.2
      (appendMaybeSort (getAssoc (getAssoc stkv t.1 []) t.2 []) id))

def addSeries (m : Meas) (id : Nat) (tags : List (String × String)) : Meas × Bool :=
  if m.seriesByID.any (fun p => p.1 == id) then (m, false)
  else
    ({ seriesByID := m.seriesByID ++ [(id, tags)],
       seriesIDs := appendMaybeSort m.seriesIDs id,
       seriesByTagKeyValue := tags.foldl (addTagStep id) m.seriesByTagKeyValue },
      true)

def dropSeries (m : Meas) (sid : Nat) : Meas × Bool :=
  if m.seriesByID.any (fun p => p.1 == sid) then
    ({ seriesByID := m.seriesByID.filter (fun p => p.1 != sid),
       seriesIDs := m.seriesIDs.filter (fun i => i != sid),
       seriesByTagKeyValue :=
         ((m.seriesByTagKeyValue.map (fun kv =>
             (kv.1,
               (kv.2.map (fun vv => (vv.1, vv.2.filter (fun i => i != sid)))).filter
                 (fun vv => vv.2.length != 0)))).filter
           (fun kv => kv.2.length != 0)) }, true)
  else (m, true)

inductive MOp where
  | add (id : Nat) (tags : List (String × String))
  | drop (id : Nat)

def applyOp (m : Meas) : MOp → Meas
  | MOp.add id tags => (addSeries m id tags).1
  | MOp.drop id => (dropSeries m id).1

def applyOps (m : Meas) (ops : List MOp) : Meas := ops.foldl applyOp m

def NewMeasurement : Meas := ⟨[], [], []⟩

def MKeys (m : Meas) : List Nat := m.seriesByID.map Prod.fst

/-- The maintained invariant: `seriesIDs` and every posting list are
strictly increasing, and every id they hold is a key of `seriesByID`. -/
def MInv (m : Meas) : Prop :=
  m.seriesIDs.Pairwise (· < ·) ∧
  (∀ i ∈ m.seriesIDs, i ∈ MKeys m) ∧
  ∀ kv ∈ m.seriesByTagKeyValue, ∀ vv ∈ kv.2,
    vv.2.Pairwise (· < ·) ∧ ∀ i ∈ vv.2, i ∈ MKeys m

def TagsOk : MOp → Prop
  | MOp.add _ tags => (tags.map Prod.fst).Nodup
  | MOp.drop _ => True

instance : DecidablePred TagsOk := fun op => by
  cases op with
  | add id tags => exact inferInstanceAs (Decidable ((tags.map Prod.fst).Nodup))
  | drop id => exact inferInstanceAs (Decidable True)

theorem mem_appendMaybeSort (l : List Nat) (id : Nat) :
    ∀ i ∈ appendMaybeSort l id, i ∈ l ∨ i = id := by
  intro i hi
  unfold appendMaybeSort at hi
  split at hi
  · have := (List.perm_insertionSort (· ≤ ·) (l ++ [id])).mem_iff.mp hi
    simpa using this
  · simpa using hi

theorem le_getD_last (l : List Nat) (hs : l.Pairwise (· < ·)) :
    ∀ x ∈ l, x ≤ l.getD (l.length - 1) 0 := by
  induction l with
  | nil => intro x hx; simp at hx
  | cons a t ih =>
    intro x hx
    cases t with
    | nil =>
      simp at hx
      simp [hx]
    | cons b t2 =>
      have hpc := List.pairwise_cons.mp hs
      have hlen : (a :: b :: t2).length - 1 = (b :: t2).length - 1 + 1 := by simp
      rw [hlen, List.getD_cons_succ]
      rcases List.mem_cons.mp hx with h | h
      · subst h
        have hn : (b :: t2).length - 1 < (b :: t2).length := by simp
        have hmem : (b :: t2).getD ((b :: t2).length - 1) 0 ∈ b :: t2 := by
          rw [List.getD_eq_getElem (b :: t2) 0 hn]
          apply List.getElem_mem
        exact le_of_lt (hpc.1 _ hmem)
      · exact ih hpc.2 x h

theorem appendMaybeSort_sorted (l : List Nat) (id : Nat)
    (hs : l.Pairwise (· < ·)) (hid : id ∉ l) :
    (appendMaybeSort l id).Pairwise (· < ·) := by
  have hnd : l.Nodup := hs.imp (fun h => Nat.ne_of_lt h)
  have hnd2 : (l ++ [id]).Nodup := by
    rw [List.nodup_append]
    refine ⟨hnd, List.nodup_singleton _, ?_⟩
    intro a ha hb
    simp only [List.mem_singleton] at hb
    exact hid (hb ▸ ha)
  unfold appendMaybeSort
  split
  · exact (List.sorted_insertionSort _ _).lt_of_le
      ((List.perm_insertionSort _ _).nodup_iff.mpr hnd2)
  · rename_i hcond
    rw [List.pairwise_append]
    refine ⟨hs, List.pairwise_singleton _ _, ?_⟩
    intro x hx y hy
    simp only [List.mem_singleton] at hy
    rw [hy]
    by_contra hxe
    push_neg at hxe
    have hlen : (l ++ [id]).length = l.length + 1 := by simp
    have hlpos : 0 < l.length := List.length_pos.mpr (List.ne_nil_of_mem hx)
    have h1 : (l ++ [id]).getD ((l ++ [id]).length - 1) 0 = id := by
      rw [hlen, Nat.add_sub_cancel,
        List.getD_append_right l [id] 0 l.length (le_refl _)]
      simp
    have h2 : (l ++ [id]).getD ((l ++ [id]).length - 2) 0 = l.getD (l.length - 1) 0 := by
      rw [hlen]
      have he : l.length + 1 - 2 = l.length - 1 := by omega
      rw [he, List.getD_append l [id] 0 (l.length - 1) (by omega)]
    have hgt : (l ++ [id]).length > 1 := by rw [hlen]; omega
    have hnotlt : ¬ ((l ++ [id]).getD ((l ++ [id]).length - 1) 0 <
        (l ++ [id]).getD ((l ++ [id]).length - 2) 0) :=
      fun hb => hcond ⟨hgt, hb⟩
    rw [h1, h2] at hnotlt
    have hxle : x ≤ l.getD (l.length - 1) 0 := le_getD_last l hs x hx
    have hxid : x = id := by omega
    exact hid (hxid ▸ hx)

theorem mem_setAssoc {α : Type} (l : List (String × α)) (k : String) (v : α) :
    ∀ p ∈ setAssoc l k v, p ∈ l ∨ p = (k, v) := by
  intro p hp
  unfold setAssoc at hp
  split at hp
  · rcases List.mem_map.mp hp with ⟨q, hq, hmap⟩
    by_cases h : (q.1 == k) = true
    · right; rw [← hmap]; simp [h]
    · left
      rw [← hmap]
      simp only [h, if_false]
      exact hq
  · rcases List.mem_append.mp hp with h | h
    · exact Or.inl h
    · right; simpa using h

theorem getAssoc_eq_or_mem {α : Type} (l : List (String × α)) (k : String) (d : α) :
    getAssoc l k d = d ∨ ∃ p ∈ l, p.1 = k ∧ p.2 = getAssoc l k d := by
  rcases hf : l.find? (fun p => p.1 == k) with _ | p
  · left; simp [getAssoc, hf]
  · right
    refine ⟨p, List.mem_of_find?_eq_some hf, ?_, ?_⟩
    · have := List.find?_some hf
      simpa using this
    · simp [getAssoc, hf]

theorem foldTags_inv (id : Nat) (K : List Nat) :
    ∀ (tags : List (String × String)) (stkv : List (String × List (String × List Nat))),
      (tags.map Prod.fst).Nodup →
      (∀ kv ∈ stkv, ∀ vv ∈ kv.2,
        vv.2.Pairwise (· < ·) ∧ ∀ i ∈ vv.2, i ∈ K ∨ i = id) →
      (∀ t ∈ tags, ∀ kv ∈ stkv, kv.1 = t.1 → ∀ vv ∈ kv.2, id ∉ vv.2) →
      ∀ kv ∈ tags.foldl (addTagStep id) stkv, ∀ vv ∈ kv.2,
        vv.2.Pairwise (· < ·) ∧ ∀ i ∈ vv.2, i ∈ K ∨ i = id := by
  intro tags
  induction tags with
  | nil =>
    intro stkv _ hP _
    simpa [List.foldl_nil] using hP
  | cons t ts ih =>
    intro stkv hnd hP hQ
    rw [List.map_cons] at hnd
    obtain ⟨hnotin, hndts⟩ := List.nodup_cons.mp hnd
    rw [List.foldl_cons]
    apply ih _ hndts
    · -- the updated map still satisfies the element property
      intro kv hkv vv hvv
      rcases mem_setAssoc _ _ _ kv hkv with h | h
      · exact hP kv h vv hvv
      · subst h
        rcases mem_setAssoc _ _ _ vv hvv with h' | h'
        · rcases getAssoc_eq_or_mem stkv t.1 ([] : List (String × List Nat)) with
            hg | ⟨p, hp, hp1, hp2⟩
          · rw [hg] at h'
            simp at h'
          · rw [← hp2] at h'
            exact hP p hp vv h'
        · subst h'
          -- the freshly appended posting list
          have hids : (getAssoc (getAssoc stkv t.1 []) t.2 ([] : List Nat)).Pairwise (· < ·) ∧
              (∀ i ∈ getAssoc (getAssoc stkv t.1 []) t.2 ([] : List Nat), i ∈ K ∨ i = id) ∧
              id ∉ getAssoc (getAssoc stkv t.1 []) t.2 ([] : List Nat) := by
            rcases getAssoc_eq_or_mem (getAssoc stkv t.1 []) t.2 ([] : List Nat) with
              hg2 | ⟨q, hq, hq1, hq2⟩
            · rw [hg2]
              exact ⟨List.Pairwise.nil, by simp, by simp⟩
            · rcases getAssoc_eq_or_mem stkv t.1 ([] : List (String × List Nat)) with
                hg | ⟨p, hp, hp1, hp2⟩
              · rw [hg] at hq
                simp at hq
              · rw [← hp2] at hq
                have hPq := hP p hp q hq
                have hQq := hQ t (List.mem_cons_self _ _) p hp hp1 q hq
                rw [← hq2]
                exact ⟨hPq.1, hPq.2, hQq⟩
          refine ⟨appendMaybeSort_sorted _ id hids.1 hids.2.2, ?_⟩
          intro i hi
          rcases mem_appendMaybeSort _ id i hi with h | h
          · exact hids.2.1 i h
          · exact Or.inr h
    · -- remaining tag keys still point at id-free posting lists
      intro t' ht' kv hkv hk1 vv hvv
      rcases mem_setAssoc _ _ _ kv hkv with h | h
      · exact hQ t' (List.mem_cons_of_mem _ ht') kv h hk1 vv hvv
      · exfalso
        apply hnotin
        have : t.1 = t'.1 := by rw [← hk1, h]
        rw [this]
        exact List.mem_map_of_mem Prod.fst ht'

theorem addSeries_inv (m : Meas) (id : Nat) (tags : List (String × String))
    (hm : MInv m) (ht : (tags.map Prod.fst).Nodup) :
    MInv (addSeries m id tags).1 := by
  unfold addSeries
  split
  · exact hm
  · rename_i hnotin0
    have hidK : id ∉ MKeys m := by
      intro hK
      apply hnotin0
      rcases List.mem_map.mp hK with ⟨p, hp, hp1⟩
      exact List.any_eq_true.mpr ⟨p, hp, by simp [hp1]⟩
    obtain ⟨h1, h2, h3⟩ := hm
    have hidS : id ∉ m.seriesIDs := fun h => hidK (h2 id h)
    refine ⟨appendMaybeSort_sorted m.seriesIDs id h1 hidS, ?_, ?_⟩
    · intro i hi
      rcases mem_appendMaybeSort m.seriesIDs id i hi with h | h
      · have := h2 i h
        simp only [MKeys, List.map_append] at this ⊢
        exact List.mem_append_left _ this
      · rw [h]
        simp [MKeys]
    · intro kv hkv vv hvv
      have P0 : ∀ kv ∈ m.seriesByTagKeyValue, ∀ vv ∈ kv.2,
          vv.2.Pairwise (· < ·) ∧ ∀ i ∈ vv.2, i ∈ MKeys m ∨ i = id :=
        fun kv hkv vv hvv =>
          ⟨(h3 kv hkv vv hvv).1, fun i hi => Or.inl ((h3 kv hkv vv hvv).2 i hi)⟩
      have Q0 : ∀ t ∈ tags, ∀ kv ∈ m.seriesByTagKeyValue, kv.1 = t.1 →
          ∀ vv ∈ kv.2, id ∉ vv.2 :=
        fun t _ kv hkv _ vv hvv hin => hidK ((h3 kv hkv vv hvv).2 id hin)
      have hres := foldTags_inv id (MKeys m) tags m.seriesByTagKeyValue ht P0 Q0 kv hkv vv hvv
      refine ⟨hres.1, ?_⟩
      intro i hi
      rcases hres.2 i hi with h | h
      · simp only [MKeys, List.map_append] at h ⊢
        exact List.mem_append_left _ h
      · rw [h]
        simp [MKeys]

theorem dropSeries_inv (m : Meas) (sid : Nat) (hm : MInv m) :
    MInv (dropSeries m sid).1 := by
  unfold dropSeries
  split
  · obtain ⟨h1, h2, h3⟩ := hm
    have hkeys : ∀ i, i ∈ MKeys m → i ≠ sid →
        i ∈ MKeys { seriesByID := m.seriesByID.filter (fun p => p.1 != sid),
                    seriesIDs := m.seriesIDs.filter (fun i => i != sid),
                    seriesByTagKeyValue :=
                      ((m.seriesByTagKeyValue.map (fun kv =>
                          (kv.1,
                            (kv.2.map (fun vv =>
                              (vv.1, vv.2.filter (fun i => i != sid)))).filter
                              (fun vv => vv.2.length != 0)))).filter
                        (fun kv => kv.2.length != 0)) : Meas } := by
      intro i hi hne
      rcases List.mem_map.mp hi with ⟨p, hp, hp1⟩
      refine List.mem_map.mpr ⟨p, ?_, hp1⟩
      refine List.mem_filter.mpr ⟨hp, ?_⟩
      simp [hp1, hne]
    refine ⟨?_, ?_, ?_⟩
    · exact h1.sublist (List.filter_sublist _)
    · intro i hi
      obtain ⟨hmem, hne⟩ := List.mem_filter.mp hi
      exact hkeys i (h2 i hmem) (by simpa using hne)
    · intro kv hkv vv hvv
      obtain ⟨hkv1, _⟩ := List.mem_filter.mp hkv
      rcases List.mem_map.mp hkv1 with ⟨kv0, hkv0, hkvmap⟩
      rw [← hkvmap] at hvv
      obtain ⟨hvv1, _⟩ := List.mem_filter.mp hvv
      rcases List.mem_map.mp hvv1 with ⟨vv0, hvv0, hvvmap⟩
      rw [← hvvmap]
      have h30 := h3 kv0 hkv0 vv0 hvv0
      refine ⟨h30.1.sublist (List.filter_sublist _), ?_⟩
      intro i hi
      obtain ⟨hmem, hne⟩ := List.mem_filter.mp hi
      exact hkeys i (h30.2 i hmem) (by simpa using hne)
  · exact hm

theorem applyOps_inv (ops : List MOp) :
    ∀ m : Meas, MInv m → (∀ op ∈ ops, TagsOk op) → MInv (applyOps m ops) := by
  induction ops with
  | nil => intro m hm _; exact hm
  | cons op ops ih =>
    intro m hm hops
    refine ih (applyOp m op) ?_ (fun o ho => hops o (List.mem_cons_of_mem _ ho))
    cases op with
    | add id tags => exact addSeries_inv m id tags hm (hops _ (List.mem_cons_self _ _))
    | drop id => exact dropSeries_inv m id hm

/-- C8: starting from a fresh measurement, after any sequence of
`addSeries` and `dropSeries` calls (each add carrying distinct tag
keys, as a Go map guarantees), the `seriesIDs` list and every tag-value
posting list in `seriesByTagKeyValue` are strictly increasing — in
particular the append-then-conditionally-sort optimization preserves
sortedness. -/
theorem C8_sorted_after_ops (ops : List MOp) (hops : ∀ op ∈ ops, TagsOk op) :
    (applyOps NewMeasurement ops).seriesIDs.Pairwise (· < ·) ∧
    ∀ kv ∈ (applyOps NewMeasurement ops).seriesByTagKeyValue, ∀ vv ∈ kv.2,
      vv.2.Pairwise (· < ·) := by
  have h := applyOps_inv ops NewMeasurement
    ⟨List.Pairwise.nil, by simp [NewMeasurement], by simp [NewMeasurement]⟩ hops
  exact ⟨h.1, fun kv hkv vv hvv => (h.2.2 kv hkv vv hvv).1⟩

theorem C8_sorted_after_ops_witness :
    (∀ op ∈ [MOp.add 1 [("host", "a")], MOp.add 2 [("host", "b")], MOp.drop 1,
        MOp.add 1 [("host", "a"), ("region", "w")]], TagsOk op) ∧
    (applyOps NewMeasurement [MOp.add 1 [("host", "a")], MOp.add 2 [("host", "b")],
        MOp.drop 1, MOp.add 1 [("host", "a"), ("region", "w")]]).seriesIDs.Pairwise
      (· < ·) :=
  ⟨by decide,
    (C8_sorted_after_ops
      [MOp.add 1 [("host", "a")], MOp.add 2 [("host", "b")], MOp.drop 1,
        MOp.add 1 [("host", "a"), ("region", "w")]] (by decide)).1⟩

/-! ### C9: `SeriesFile.CreateSeriesListIfNotExists`

The series file is a log of encoded series keys: `size` is the current
file size and `entries` maps an encoded key to its byte offset
(`f.offset` returns 0 for an unknown key).  A request batch pairs each
name with its tag list; the two parallel Go slices become one list of
pairs.  New keys are inserted into the map only after the loop (post
flush), which the model reflects by looking up in the ORIGINAL file
inside the loop and appending the collected ranges at the end. -/

structure SFile where
  size : Nat
  entries : List (List Nat × Nat)

def SFile.offset (f : SFile) (key : List Nat) : Nat :=
  match f.entries.find? (fun p => p.1 == key) with
  | none => 0
  | some p => p.2

/-- The write-lock loop: skip series found in the first pass, re-attempt
the lookup, else append the encoded key at the current end of file.
Returns the per-series offsets, the new file size and the new key
ranges in iteration order. -/
def csLoop (f : SFile) :
    List ((List Nat × List STag) × Nat) → Nat →
      List Nat × Nat × List (List Nat × Nat)
  | [], size => ([], size, [])
  | (r, o) :: rest, size =>
    if o ≠ 0 then
      let res := csLoop f rest size
      (o :: res.1, res.2.1, res.2.2)
    else
      let o2 := SFile.offset f (AppendSeriesKey r.1 r.2)
      if o2 ≠ 0 then
        let res := csLoop f rest size
        (o2 :: res.1, res.2.1, res.2.2)
      else
        let key := AppendSeriesKey r.1 r.2
        let res := csLoop f rest (size + key.length)
        (size :: res.1, res.2.1, (key, size) :: res.2.2)

def CreateSeriesListIfNotExists (f : SFile) (reqs : List (List Nat × List STag)) :
    Option (List Nat) × SFile :=
  if (reqs.map (fun r => SFile.offset f (AppendSeriesKey r.1 r.2))).all
      (fun o => o != 0) then (none, f)
  else
    let res := csLoop f
      (reqs.zip (reqs.map (fun r => SFile.offset f (AppendSeriesKey r.1 r.2)))) f.size
    (some res.1, { size := res.2.1, entries := f.entries ++ res.2.2 })

/-- C9: the batch create returns nil offsets exactly when every
requested series already exists — the offsets looked up in the first
pass are discarded and the file is left unchanged; a per-series offset
slice comes back only when at least one series is newly created. -/
theorem C9_nil_offsets_iff_all_exist (f : SFile) (reqs : List (List Nat × List STag)) :
    ((CreateSeriesListIfNotExists f reqs).1 = none ↔
      ∀ r ∈ reqs, SFile.offset f (AppendSeriesKey r.1 r.2) ≠ 0) ∧
    ((CreateSeriesListIfNotExists f reqs).1 = none →
      (CreateSeriesListIfNotExists f reqs).2 = f) := by
  by_cases hall :
      (reqs.map (fun r => SFile.offset f (AppendSeriesKey r.1 r.2))).all
        (fun o => o != 0) = true
  · have hmain : CreateSeriesListIfNotExists f reqs = (none, f) := by
      rw [CreateSeriesListIfNotExists, if_pos hall]
    rw [hmain]
    refine ⟨⟨fun _ => ?_, fun _ => rfl⟩, fun _ => rfl⟩
    intro r hr h0
    have hmem : SFile.offset f (AppendSeriesKey r.1 r.2) ∈
        reqs.map (fun r => SFile.offset f (AppendSeriesKey r.1 r.2)) :=
      List.mem_map_of_mem _ hr
    have hbne := List.all_eq_true.mp hall _ hmem
    rw [h0] at hbne
    simp at hbne
  · have hmain : (CreateSeriesListIfNotExists f reqs).1 =
        some (csLoop f
          (reqs.zip (reqs.map (fun r => SFile.offset f (AppendSeriesKey r.1 r.2))))
          f.size).1 := by
      rw [CreateSeriesListIfNotExists, if_neg hall]
    refine ⟨⟨fun hnone => ?_, fun hforall => ?_⟩, fun hnone => ?_⟩
    · rw [hmain] at hnone; cases hnone
    · exfalso
      apply hall
      rw [List.all_eq_true]
      intro o ho
      rcases List.mem_map.mp ho with ⟨r, hr, rfl⟩
      simpa using hforall r hr
    · rw [hmain] at hnone; cases hnone

/-! ### C5 / C10: `Shard.validateSeriesAndFields`

A point carries its measurement name, tags and its fields' keys and
types (values are irrelevant to validation).  The shard's surroundings
are an abstract environment.  Modelled from the spec (their code is
outside `src/`): `measurementExists`/`hasTagKeyValue`/`cardinality`
stand for `s.Measurement`, `m.HasTagKeyValue` and `m.CardinalityBytes`
(distinct-value count of a tag key); `createSeries` stands for
`engine.CreateSeriesIfNotExists`, returning ok, a `LimitError` to be
absorbed as a drop, or a fatal error; `measurementFields` stands for
`engine.MeasurementFields` (`none` = nil map).  The field iterator's
`Delete` of a reserved `time` field becomes filtering the field list.
`fmt.Sprintf` reason strings are not rendered: stage-one drops leave
the reason empty and a `LimitError` contributes its reason verbatim. -/

structure SPoint where
  name : String
  tags : List (String × String)
  fields : List (String × DataType)
deriving DecidableEq, Repr

inductive CreateRes where
  | ok
  | limit (reason : String)
  | fatal (msg : String)
deriving DecidableEq, Repr

structure VEnv where
  measurementExists : String → Bool
  hasTagKeyValue : String → String → String → Bool
  cardinality : String → String → Nat
  createSeries : String → List (String × String) → CreateRes
  measurementFields : String → Option (List (String × DataType))

structure VState where
  outPoints : List SPoint
  fieldsToCreate : List (String × String × DataType)
  created : List (String × List (String × String))
  dropped : Nat
  reason : String

def timeKey : String := "time"

/-- Stage one of `validateSeriesAndFields`: a point is dropped when its
measurement exists and some tag carries a value not yet indexed for a
key whose distinct-value count has reached the cap. -/
def dropPointCheck (env : VEnv) (maxV : Nat) (p : SPoint) : Bool :=
  if env.measurementExists p.name then
    p.tags.any (fun t =>
      !(env.hasTagKeyValue p.name t.1 t.2) &&
        decide (env.cardinality p.name t.1 ≥ maxV))
  else false

def stripTimeTags (p : SPoint) : List (String × String) :=
  p.tags.filter (fun t => t.1 != timeKey)

def effFields (p : SPoint) : List (String × DataType) :=
  p.fields.filter (fun f => f.1 != timeKey)

def hasValidField (p : SPoint) : Bool :=
  p.fields.any (fun f => f.1 != timeKey)

/-- A field conflicts when the measurement's field map already holds it
at a different type. -/
def fieldConflict (mfs : List (String × DataType)) (f : String × DataType) : Bool :=
  match mfs.find? (fun g => g.1 == f.1) with
  | none => false
  | some g => g.2 != f.2

def NoConflict (env : VEnv) (p : SPoint) : Bool :=
  match env.measurementFields p.name with
  | none => true
  | some mfs => (effFields p).all (fun f => !(fieldConflict mfs f))

/-- One iteration of the second loop: strip reserved tags and fields,
silently skip a point with no valid field, absorb a series `LimitError`
as a drop, collect new field definitions (a nil field map collects all
fields and excludes the point from the output), fatally error on a type
conflict, otherwise keep the point. -/
def validateStep (env : VEnv) (st : VState) (p : SPoint) : Except String VState :=
  if hasValidField p then
    match env.createSeries p.name (stripTimeTags p) with
    | CreateRes.limit r =>
      Except.ok { st with dropped := st.dropped + 1, reason := r }
    | CreateRes.fatal m => Except.error m
    | CreateRes.ok =>
      let st1 := { st with created := st.created ++ [(p.name, stripTimeTags p)] }
      match env.measurementFields p.name with
      | none =>
        Except.ok { st1 with
          fieldsToCreate := st1.fieldsToCreate ++
            (effFields p).map (fun f => (p.name, f.1, f.2)) }
      | some mfs =>
        match (effFields p).find? (fieldConflict mfs) with
        | some _ => Except.error "field type conflict"
        | none =>
          Except.ok { st1 with
            fieldsToCreate := st1.fieldsToCreate ++
              ((effFields p).filter (fun f => !(mfs.any (fun g => g.1 == f.1)))).map
                (fun f => (p.name, f.1, f.2)),
            outPoints := st1.outPoints ++ [p] }
  else Except.ok st

def validateLoop (env : VEnv) : List SPoint → VState → Except String VState
  | [], st => Except.ok st
  | p :: rest, st =>
    match validateStep env st p with
    | Except.error e => Except.error e
    | Except.ok st' => validateLoop env rest st'

def validateSeriesAndFields (env : VEnv) (maxV : Nat) (points : List SPoint) :
    Except String
      (List SPoint × List (String × String × DataType) ×
        List (String × List (String × String)) × Option (String × Nat)) :=
  match validateLoop env
      (if 0 < maxV then points.filter (fun p => !(dropPointCheck env maxV p))
        else points)
      ⟨[], [], [],
        (if 0 < maxV then (points.filter (fun p => dropPointCheck env maxV p)).length
          else 0), ""⟩ with
  | Except.error e => Except.error e
  | Except.ok st =>
    Except.ok (st.outPoints, st.fieldsToCreate, st.created,
      if 0 < st.dropped then some (st.reason, st.dropped) else none)

theorem validateLoop_spec (env : VEnv) :
    ∀ pts : List SPoint,
      (∀ p ∈ pts, env.createSeries p.name (stripTimeTags p) = CreateRes.ok) →
      (∀ p ∈ pts, NoConflict env p = true) →
      ∀ st : VState, ∃ out ftc,
        validateLoop env pts st =
          Except.ok
            { outPoints := out, fieldsToCreate := ftc,
              created := st.created ++ (pts.filter hasValidField).map
                (fun p => (p.name, stripTimeTags p)),
              dropped := st.dropped, reason := st.reason } := by
  intro pts
  induction pts with
  | nil =>
    intro _ _ st
    exact ⟨st.outPoints, st.fieldsToCreate, by simp [validateLoop]⟩
  | cons p rest ih =>
    intro hok hnc st
    have hokp := hok p (List.mem_cons_self _ _)
    have hok' : ∀ q ∈ rest, env.createSeries q.name (stripTimeTags q) = CreateRes.ok :=
      fun q hq => hok q (List.mem_cons_of_mem _ hq)
    have hnc' : ∀ q ∈ rest, NoConflict env q = true :=
      fun q hq => hnc q (List.mem_cons_of_mem _ hq)
    rw [validateLoop]
    by_cases hv : hasValidField p = true
    · rw [validateStep] at *
      simp only [hv, if_true, hokp]
      rcases hm : env.measurementFields p.name with _ | mfs
      · obtain ⟨out, ftc, heq⟩ := ih hok' hnc'
          { st with
            created := st.created ++ [(p.name, stripTimeTags p)],
            fieldsToCreate := st.fieldsToCreate ++
              (effFields p).map (fun f => (p.name, f.1, f.2)) }
        refine ⟨out, ftc, ?_⟩
        simp [heq, List.filter_cons, hv]
      · have hncp := hnc p (List.mem_cons_self _ _)
        rw [NoConflict, hm] at hncp
        have hfind : (effFields p).find? (fieldConflict mfs) = none := by
          rw [List.find?_eq_none]
          intro x hx
          have := List.all_eq_true.mp hncp x hx
          simp only [Bool.not_eq_true'] at this
          simp [this]
        simp only [hfind]
        obtain ⟨out, ftc, heq⟩ := ih hok' hnc'
          { st with
            created := st.created ++ [(p.name, stripTimeTags p)],
            fieldsToCreate := st.fieldsToCreate ++
              ((effFields p).filter (fun f => !(mfs.any (fun g => g.1 == f.1)))).map
                (fun f => (p.name, f.1, f.2)),
            outPoints := st.outPoints ++ [p] }
        refine ⟨out, ftc, ?_⟩
        simp [heq, List.filter_cons, hv]
    · rw [validateStep]
      simp only [hv, if_false]
      have hvf : hasValidField p = false := by
        cases h : hasValidField p
        · rfl
        · exact absurd h hv
      obtain ⟨out, ftc, heq⟩ := ih hok' hnc' st
      refine ⟨out, ftc, ?_⟩
      simp [heq, List.filter_cons, hvf]

theorem validateLoop_skip (env : VEnv) (p : SPoint) (hp : hasValidField p = false) :
    ∀ (pre post : List SPoint) (st : VState),
      validateLoop env (pre ++ p :: post) st = validateLoop env (pre ++ post) st := by
  intro pre
  induction pre with
  | nil =>
    intro post st
    simp only [List.nil_append]
    rw [validateLoop]
    simp [validateStep, hp]
  | cons q pre ih =>
    intro post st
    simp only [List.cons_append]
    rw [validateLoop]
    cases hstep : validateStep env st q with
    | error e => rw [validateLoop, hstep]
    | ok st' =>
      rw [validateLoop, hstep]
      simp only []
      exact ih post st'

/-- C5: with a positive `max_values_per_tag`, while series creation
succeeds and field types agree, the write path drops exactly the
points caught by the tag-value cap check: the remaining points are all
processed (one series creation per surviving point with a valid field,
nothing for the dropped ones) and the call reports a partial write
whose dropped count equals the number of dropped points — no fatal
error fails the batch. -/
theorem C5_tag_cap_partial_write (env : VEnv) (maxV : Nat) (points : List SPoint)
    (hpos : 0 < maxV)
    (hok : ∀ p ∈ points, env.createSeries p.name (stripTimeTags p) = CreateRes.ok)
    (hnc : ∀ p ∈ points, NoConflict env p = true) :
    ∃ out ftc,
      validateSeriesAndFields env maxV points =
        Except.ok (out, ftc,
          ((points.filter (fun p => !(dropPointCheck env maxV p))).filter
            hasValidField).map (fun p => (p.name, stripTimeTags p)),
          if 0 < (points.filter (fun p => dropPointCheck env maxV p)).length then
            some ("", (points.filter (fun p => dropPointCheck env maxV p)).length)
          else none) := by
  obtain ⟨out, ftc, heq⟩ := validateLoop_spec env
    (points.filter (fun p => !(dropPointCheck env maxV p)))
    (fun p hp => hok p (List.mem_of_mem_filter hp))
    (fun p hp => hnc p (List.mem_of_mem_filter hp))
    ⟨[], [], [], (points.filter (fun p => dropPointCheck env maxV p)).length, ""⟩
  refine ⟨out, ftc, ?_⟩
  rw [validateSeriesAndFields]
  simp only [if_pos hpos]
  rw [heq]
  simp

theorem C5_tag_cap_partial_write_witness :
    (0 : Nat) < 2 ∧
    (∀ p ∈ [(⟨"cpu", [("host", "C")], [("value", DataType.float)]⟩ : SPoint),
        ⟨"cpu", [("host", "A")], [("value", DataType.float)]⟩],
      VEnv.createSeries
        ⟨fun n => n == "cpu",
          fun _ k v => k == "host" && (v == "A" || v == "B"),
          fun _ k => if k == "host" then 2 else 0,
          fun _ _ => CreateRes.ok,
          fun _ => some [("value", DataType.float)]⟩
        p.name (stripTimeTags p) = CreateRes.ok) ∧
    (∃ out ftc,
      validateSeriesAndFields
        ⟨fun n => n == "cpu",
          fun _ k v => k == "host" && (v == "A" || v == "B"),
          fun _ k => if k == "host" then 2 else 0,
          fun _ _ => CreateRes.ok,
          fun _ => some [("value", DataType.float)]⟩ 2
        [⟨"cpu", [("host", "C")], [("value", DataType.float)]⟩,
          ⟨"cpu", [("host", "A")], [("value", DataType.float)]⟩] =
        Except.ok (out, ftc,
          (([(⟨"cpu", [("host", "C")], [("value", DataType.float)]⟩ : SPoint),
            ⟨"cpu", [("host", "A")], [("value", DataType.float)]⟩].filter
              (fun p => !(dropPointCheck
                ⟨fun n => n == "cpu",
                  fun _ k v => k == "host" && (v == "A" || v == "B"),
                  fun _ k => if k == "host" then 2 else 0,
                  fun _ _ => CreateRes.ok,
                  fun _ => some [("value", DataType.float)]⟩ 2 p))).filter
            hasValidField).map (fun p => (p.name, stripTimeTags p)),
          if 0 < ([(⟨"cpu", [("host", "C")], [("value", DataType.float)]⟩ : SPoint),
              ⟨"cpu", [("host", "A")], [("value", DataType.float)]⟩].filter
                (fun p => dropPointCheck
                  ⟨fun n => n == "cpu",
                    fun _ k v => k == "host" && (v == "A" || v == "B"),
                    fun _ k => if k == "host" then 2 else 0,
                    fun _ _ => CreateRes.ok,
                    fun _ => some [("value", DataType.float)]⟩ 2 p)).length then
            some ("", ([(⟨"cpu", [("host", "C")], [("value", DataType.float)]⟩ : SPoint),
              ⟨"cpu", [("host", "A")], [("value", DataType.float)]⟩].filter
                (fun p => dropPointCheck
                  ⟨fun n => n == "cpu",
                    fun _ k v => k == "host" && (v == "A" || v == "B"),
                    fun _ k => if k == "host" then 2 else 0,
                    fun _ _ => CreateRes.ok,
                    fun _ => some [("value", DataType.float)]⟩ 2 p)).length)
          else none)) :=
  ⟨by decide, by decide,
    C5_tag_cap_partial_write
      ⟨fun n => n == "cpu",
        fun _ k v => k == "host" && (v == "A" || v == "B"),
        fun _ k => if k == "host" then 2 else 0,
        fun _ _ => CreateRes.ok,
        fun _ => some [("value", DataType.float)]⟩ 2
      [⟨"cpu", [("host", "C")], [("value", DataType.float)]⟩,
        ⟨"cpu", [("host", "A")], [("value", DataType.float)]⟩]
      (by decide) (by decide) (by decide)⟩

/-- C10: a point all of whose fields are named `time` — provided the
tag-cap stage does not already drop it — is silently removed by the
write path: validation of a batch containing it returns exactly the
result for the batch without it, so no series is created for it, it is
absent from the returned points, and it is not counted in any partial
write's dropped count. -/
theorem C10_all_time_fields_silent (env : VEnv) (maxV : Nat)
    (pre post : List SPoint) (p : SPoint)
    (hall : hasValidField p = false)
    (hnd : dropPointCheck env maxV p = false) :
    validateSeriesAndFields env maxV (pre ++ p :: post) =
      validateSeriesAndFields env maxV (pre ++ post) := by
  rw [validateSeriesAndFields, validateSeriesAndFields]
  have h1 : (pre ++ p :: post).filter (fun q => !(dropPointCheck env maxV q)) =
      pre.filter (fun q => !(dropPointCheck env maxV q)) ++
        p :: post.filter (fun q => !(dropPointCheck env maxV q)) := by
    simp [List.filter_append, List.filter_cons, hnd]
  have h2 : (pre ++ p :: post).filter (fun q => dropPointCheck env maxV q) =
      (pre ++ post).filter (fun q => dropPointCheck env maxV q) := by
    simp [List.filter_append, List.filter_cons, hnd]
  by_cases hpos : 0 < maxV
  · simp only [if_pos hpos, h1, h2]
    rw [validateLoop_skip env p hall]
    rw [← List.filter_append]
  · simp only [if_neg hpos]
    rw [validateLoop_skip env p hall]

theorem C10_all_time_fields_silent_witness :
    hasValidField (⟨"cpu", [("host", "A")], [("time", DataType.float)]⟩ : SPoint) = false ∧
    dropPointCheck
      ⟨fun n => n == "cpu",
        fun _ k v => k == "host" && (v == "A" || v == "B"),
        fun _ k => if k == "host" then 2 else 0,
        fun _ _ => CreateRes.ok,
        fun _ => some [("value", DataType.float)]⟩ 2
      ⟨"cpu", [("host", "A")], [("time", DataType.float)]⟩ = false ∧
    validateSeriesAndFields
      ⟨fun n => n == "cpu",
        fun _ k v => k == "host" && (v == "A" || v == "B"),
        fun _ k => if k == "host" then 2 else 0,
        fun _ _ => CreateRes.ok,
        fun _ => some [("value", DataType.float)]⟩ 2
      ([⟨"cpu", [("host", "B")], [("value", DataType.float)]⟩] ++
        (⟨"cpu", [("host", "A")], [("time", DataType.float)]⟩ : SPoint) :: []) =
    validateSeriesAndFields
      ⟨fun n => n == "cpu",
        fun _ k v => k == "host" && (v == "A" || v == "B"),
        fun _ k => if k == "host" then 2 else 0,
        fun _ _ => CreateRes.ok,
        fun _ => some [("value", DataType.float)]⟩ 2
      ([⟨"cpu", [("host", "B")], [("value", DataType.float)]⟩] ++ []) :=
  ⟨by decide, by decide,
    C10_all_time_fields_silent
      ⟨fun n => n == "cpu",
        fun _ k v => k == "host" && (v == "A" || v == "B"),
        fun _ k => if k == "host" then 2 else 0,
        fun _ _ => CreateRes.ok,
        fun _ => some [("value", DataType.float)]⟩ 2
      [⟨"cpu", [("host", "B")], [("value", DataType.float)]⟩] []
      ⟨"cpu", [("host", "A")], [("time", DataType.float)]⟩
      (by decide) (by decide)⟩

end Tsdb
